import Mathlib

/-!
# Verification of the zarr-digest-timings checksum core

Shallow embedding of the repository's checksum engine:

* `FSTree` models the directory tree a walk operates on, including nodes on
  which the relevant OS calls raise `OSError`.
* `walkAll` models the walkers' shared emission behaviour
  (`src/checksummers/sync.py`, `src/checksummers/oothreads.py`,
  `src/checksummers/fastio.py`, `src/checksummers/trio.py`,
  `src/checksummers/trio2.py`): a scheduler index list stands for the
  nondeterministic choice of which pending directory a worker scans next,
  and a flag records whether the strategy catches `OSError` at the worker
  boundary.
* `insertPath` / `compileStream` / `nodeDigest` model
  `ZarrChecksumCompiler.add` / `IterativeChecksummer.checksum` /
  `Directory.get_digest` from `src/checksummers/bases.py`.
* `recDigest` models `RecursiveChecksummer.checksum` from
  `src/checksummers/recursive.py`.
* `JSState` / `takeOrDone` / `JSStep` model the termination-tracking queue
  `JobStack` of `src/checksummers/oothreads.py` (and its cooperative twin
  `AsyncJobStack` of `src/checksummers/trio.py`).

The external collaborators are parameters: `Hash` stands for the leaf digest
function (`md5digest`) and `Combine` for the external combination function
(`dandischema`'s `get_checksum`), which the spec requires to be
order-independent over its two mappings (`PermInv`).
-/

abbrev Bytes := List Nat

abbrev Hash := Bytes → String

abbrev Combine := List (String × String) → List (String × String) → String

/-- The combination function is deterministic and order-independent over its
two input mappings (spec section 6, "Combination function"). -/
def PermInv (c : Combine) : Prop :=
  ∀ fs₁ fs₂ ds₁ ds₂ : List (String × String),
    fs₁.Perm fs₂ → ds₁.Perm ds₂ → c fs₁ ds₁ = c fs₂ ds₂

/-- A directory tree as the walkers observe it through the filesystem API.
`badDir` is a directory on which `iterdir()` / `os.listdir` raises `OSError`
(a ScanError: permission denied, vanished path); `badFile` is a file on which
`md5digest` raises `OSError` (a ReadError).  `os.path.isdir` is `true` on
`dir` and on `badDir` (an unreadable directory is still a directory). -/
inductive FSTree where
  | file (content : Bytes)
  | badFile
  | dir (entries : List (String × FSTree))
  | badDir

mutual

def FSTree.size : FSTree → Nat
  | .dir es => 1 + sizeEntries es
  | _ => 1

def sizeEntries : List (String × FSTree) → Nat
  | [] => 0
  | (_, t) :: rest => t.size + sizeEntries rest

end

/-- Entry names are pairwise distinct (true of any real directory listing). -/
def allDiff : List String → Bool
  | [] => true
  | x :: xs => !(xs.contains x) && allDiff xs

mutual

/-- No `badFile` / `badDir` node anywhere in the tree: every OS call made
during a walk of this tree succeeds. -/
def errFree : FSTree → Bool
  | .file _ => true
  | .badFile => false
  | .dir es => errFreeEntries es
  | .badDir => false

def errFreeEntries : List (String × FSTree) → Bool
  | [] => true
  | (_, t) :: rest => errFree t && errFreeEntries rest

end

mutual

/-- No `badFile` node anywhere (reads never fail; directory scans may). -/
def noBadFile : FSTree → Bool
  | .file _ => true
  | .badFile => false
  | .dir es => noBadFileEntries es
  | .badDir => true

def noBadFileEntries : List (String × FSTree) → Bool
  | [] => true
  | (_, t) :: rest => noBadFile t && noBadFileEntries rest

end

mutual

/-- Well-formed filesystem tree: the names listed in any one directory are
pairwise distinct, as on a real filesystem. -/
def fsWF : FSTree → Bool
  | .dir es => allDiff (es.map Prod.fst) && fsWFEntries es
  | _ => true

def fsWFEntries : List (String × FSTree) → Bool
  | [] => true
  | (_, t) :: rest => fsWF t && fsWFEntries rest

end

mutual

/-- A directory node (with everything below it) is nonempty; trivially true
on non-directories. -/
def nonEmptyDir : FSTree → Bool
  | .dir es => !es.isEmpty && noEmptyDirsEntries es
  | _ => true

def noEmptyDirsEntries : List (String × FSTree) → Bool
  | [] => true
  | (_, t) :: rest => nonEmptyDir t && noEmptyDirsEntries rest

end

/-- Every directory node strictly below this node has at least one entry
(spec section 4.4: trees "containing no empty directories"). -/
def noEmptyDirs : FSTree → Bool
  | .dir es => noEmptyDirsEntries es
  | _ => true

mutual

/-- Number of regular files in the tree (the F of spec section 8,
"Termination"). -/
def countFiles : FSTree → Nat
  | .file _ => 1
  | .dir es => countFilesEntries es
  | _ => 0

def countFilesEntries : List (String × FSTree) → Nat
  | [] => 0
  | (_, t) :: rest => countFiles t + countFilesEntries rest

end

/-- Slash-joined relative path, as produced by `"/".join(parts)` in
`ZarrChecksumCompiler.add` and by `Path.relative_to(root).as_posix()` in
`RecursiveChecksummer.checksum`. -/
def joinPath (parts : List String) : String := String.intercalate "/" parts

/-- Specification-side list of all (relative path, digest) pairs of the
regular files of an entry list, in depth-first listing order.  Paths are
component lists relative to the directory holding the entries. -/
def allFilesEntries (h : Hash) : List (String × FSTree) → List (List String × String)
  | [] => []
  | (n, .file c) :: rest => ([n], h c) :: allFilesEntries h rest
  | (n, .dir es) :: rest =>
      (allFilesEntries h es).map (fun p => (n :: p.1, p.2)) ++ allFilesEntries h rest
  | (_, .badFile) :: rest => allFilesEntries h rest
  | (_, .badDir) :: rest => allFilesEntries h rest

/-- Re-root a list of (relative path, digest) pairs under prefix `π`. -/
def prefixed (π : List String) (l : List (List String × String)) :
    List (List String × String) :=
  l.map (fun p => (π ++ p.1, p.2))

/-!
## The walkers' per-directory work

`processEntries` models the body of the per-worker loop shared by all
walkers (`OOThreadsWalker.worker`, the `worker` closure of
`FastioWalker.digest_walk`, `SyncWalker.digest_walk`,
`TrioWalker.async_worker`, `TrioWalker2.async_worker`): iterate over the
directory's entries in listing order; a subdirectory (anything on which
`is_dir()` is true, including an unreadable one) becomes a new work item; a
regular file is digested and emitted.  The boolean is `false` when an
`OSError` was raised partway (a `badFile` hit by `md5digest`), in which case
the rest of the listing is not reached.
-/

def processEntries (h : Hash) (π : List String) :
    List (String × FSTree) →
      List (List String × FSTree) × List (List String × String) × Bool
  | [] => ([], [], true)
  | (n, .file c) :: rest =>
      let r := processEntries h π rest
      (r.1, (π ++ [n], h c) :: r.2.1, r.2.2)
  | (_, .badFile) :: _ => ([], [], false)
  | (n, .dir es) :: rest =>
      let r := processEntries h π rest
      ((π ++ [n], FSTree.dir es) :: r.1, r.2.1, r.2.2)
  | (n, .badDir) :: rest =>
      let r := processEntries h π rest
      ((π ++ [n], FSTree.badDir) :: r.1, r.2.1, r.2.2)

/-- One unit of work: scan one pending directory path.  `iterdir()` on a
non-directory or on an unreadable directory raises `OSError` before anything
is listed. -/
def processItem (h : Hash) : List String × FSTree →
    List (List String × FSTree) × List (List String × String) × Bool
  | (π, .dir es) => processEntries h π es
  | (_, .file _) => ([], [], false)
  | (_, .badFile) => ([], [], false)
  | (_, .badDir) => ([], [], false)

def pendingSize (l : List (List String × FSTree)) : Nat :=
  (l.map (fun it => it.2.size)).sum

theorem sizeEntries_eq_sum (es : List (String × FSTree)) :
    sizeEntries es = (es.map (fun e => e.2.size)).sum := by
  induction es with
  | nil => rfl
  | cons e rest ih => cases e with | _ n t => simp [sizeEntries, ih]

theorem size_pos (t : FSTree) : 0 < t.size := by
  cases t <;> simp [FSTree.size]

theorem processEntries_jobs_size (h : Hash) (π : List String)
    (es : List (String × FSTree)) :
    pendingSize (processEntries h π es).1 ≤ sizeEntries es := by
  induction es with
  | nil => simp [processEntries, pendingSize]
  | cons e rest ih =>
      obtain ⟨n, t⟩ := e
      cases t with
      | file c =>
          simp only [processEntries, sizeEntries]
          exact le_trans ih (Nat.le_add_left _ _)
      | badFile =>
          simp only [processEntries, sizeEntries, pendingSize, List.map_nil,
            List.sum_nil]
          exact Nat.zero_le _
      | dir es' =>
          simp only [processEntries, sizeEntries, pendingSize, List.map_cons,
            List.sum_cons, FSTree.size]
          exact Nat.add_le_add_left ih _
      | badDir =>
          simp only [processEntries, sizeEntries, pendingSize, List.map_cons,
            List.sum_cons, FSTree.size]
          exact Nat.add_le_add_left ih _

theorem processItem_jobs_size (h : Hash) (it : List String × FSTree) :
    pendingSize (processItem h it).1 < it.2.size := by
  obtain ⟨π, t⟩ := it
  cases t with
  | dir es =>
      simp only [processItem, FSTree.size]
      have := processEntries_jobs_size h π es
      omega
  | file c => simp [processItem, pendingSize, FSTree.size]
  | badFile => simp [processItem, pendingSize, FSTree.size]
  | badDir => simp [processItem, pendingSize, FSTree.size]

theorem pendingSize_append (l₁ l₂ : List (List String × FSTree)) :
    pendingSize (l₁ ++ l₂) = pendingSize l₁ + pendingSize l₂ := by
  simp [pendingSize]

theorem pendingSize_eraseIdx (l : List (List String × FSTree)) (i : Nat)
    (hi : i < l.length) (d : List String × FSTree) :
    pendingSize (l.eraseIdx i) + (l.getD i d).2.size = pendingSize l := by
  induction l generalizing i with
  | nil => simp at hi
  | cons x xs ih =>
      cases i with
      | zero => simp [pendingSize, List.eraseIdx, List.getD]; omega
      | succ j =>
          have hj : j < xs.length := by simpa using hi
          have := ih j hj
          simp only [List.eraseIdx, pendingSize, List.map_cons, List.sum_cons,
            List.getD_cons_succ] at *
          omega

/-- Removing the scheduled item and putting it in front is a permutation of
the pending list. -/
theorem getD_cons_eraseIdx_perm (l : List (List String × FSTree)) (i : Nat)
    (hi : i < l.length) (d : List String × FSTree) :
    (l.getD i d :: l.eraseIdx i).Perm l := by
  induction l generalizing i with
  | nil => simp at hi
  | cons x xs ih =>
      cases i with
      | zero => simp [List.eraseIdx, List.getD]
      | succ j =>
          have hj : j < xs.length := by simpa using hi
          have hperm := ih j hj
          simp only [List.getD_cons_succ, List.eraseIdx]
          exact (List.Perm.swap x _ _).trans (hperm.cons x)

/--
The walkers' shared emission engine.  The state is the multiset of pending
work items (the content of `JobStack` / `AsyncJobStack` / the `paths` list of
`fastio`, or the `dirs` deque of `SyncWalker`), each a directory path paired
with the subtree found there.  At every step some pending item is scanned:
`sched` supplies the index of the chosen item (via a rotation, so any item
can be chosen — this covers every thread count and interleaving, as well as
`SyncWalker`'s FIFO order, which is index 0 throughout, i.e. `sched = []`).

`catchErr` tells whether the strategy catches `OSError` at the worker
boundary (`except OSError: log.exception(...)` in `OOThreadsWalker.worker`
and in `FastioWalker`'s `worker`; `SyncWalker`, `TrioWalker` and
`TrioWalker2` have no such handler, so there the first `OSError` aborts the
whole walk).  When an error is caught, the work discovered and the files
emitted before the raise are kept and the walk continues.
-/
def walkAll (catchErr : Bool) (h : Hash) :
    List Nat → List (List String × FSTree) →
      Except Unit (List (List String × String))
  | _, [] => .ok []
  | sched, p :: ps =>
      let i := sched.headD 0 % (p :: ps).length
      let item := (p :: ps).getD i ([], FSTree.badDir)
      let r := processItem h item
      if r.2.2 || catchErr then
        match walkAll catchErr h sched.tail ((p :: ps).eraseIdx i ++ r.1) with
        | .error e => .error e
        | .ok l => .ok (r.2.1 ++ l)
      else .error ()
  termination_by sched pending => pendingSize pending
  decreasing_by
    have hi : sched.headD 0 % (p :: ps).length < (p :: ps).length :=
      Nat.mod_lt _ (by simp)
    have he := pendingSize_eraseIdx (p :: ps) (sched.headD 0 % (p :: ps).length)
      hi ([], FSTree.badDir)
    have hj := processItem_jobs_size h
      ((p :: ps).getD (sched.headD 0 % (p :: ps).length) ([], FSTree.badDir))
    rw [pendingSize_append]
    omega

/-- `os.path.isdir`: true on directories, readable or not. -/
def isOsDir : FSTree → Bool
  | .dir _ => true
  | .badDir => true
  | _ => false

/-- `SyncWalker.digest_walk` (src/checksummers/sync.py): FIFO deque seeded
with the root, no `isdir` check, no `OSError` handler. -/
def syncDigestWalk (h : Hash) (t : FSTree) :
    Except Unit (List (List String × String)) :=
  walkAll false h [] [([], t)]

/-- `OOThreadsWalker.digest_walk` (src/checksummers/oothreads.py): empty
stream unless `os.path.isdir(dirpath)`; workers catch `OSError`. -/
def oothreadsDigestWalk (h : Hash) (sched : List Nat) (t : FSTree) :
    Except Unit (List (List String × String)) :=
  if isOsDir t then walkAll true h sched [([], t)] else .ok []

/-- `FastioWalker.digest_walk` (src/checksummers/fastio.py): same contract
as `oothreads` — `isdir` guard, workers catch `OSError`. -/
def fastioDigestWalk (h : Hash) (sched : List Nat) (t : FSTree) :
    Except Unit (List (List String × String)) :=
  if isOsDir t then walkAll true h sched [([], t)] else .ok []

/-- `TrioWalker.digest_walk` / `TrioWalker2.digest_walk`
(src/checksummers/trio.py, trio2.py): cooperative workers, no `isdir`
check and no `OSError` handler, so any `OSError` escapes the nursery and
aborts the walk. -/
def trioDigestWalk (h : Hash) (sched : List Nat) (t : FSTree) :
    Except Unit (List (List String × String)) :=
  walkAll false h sched [([], t)]

/-!
## The Digest Compiler (src/checksummers/bases.py)

`Node` models the `Directory` / `File` dataclasses: a `Directory`'s
`children` is a Python dict keyed by immediate entry name — modelled as an
association list in insertion order — and each node stores its slash-joined
relative `path`.  Note that `Directory.get_digest` keys the two mappings it
passes to `get_checksum` by `n.path`, the FULL relative path of each child,
not by the child's bare name.
-/

inductive Node where
  | file (path digest : String)
  | dir (path : String) (children : List (String × Node))

mutual

/-- `ZarrChecksumCompiler.add`, acting on one `children` dict.  `soFar` is
the list of path components leading to this dict (the `parts` accumulator of
the Python code).  Returns `.error ()` where the Python code raises
(`assert name not in d.children` for a duplicate leaf, `assert
isinstance(d, Directory)` for a file/directory type conflict, and the
`*dirs, name = ...` unpacking failure on an empty relative path). -/
def insertPath (children : List (String × Node)) (soFar : List String)
    (parts : List String) (dgst : String) : Except Unit (List (String × Node)) :=
  match parts with
  | [] => .error ()
  | [name] =>
      if (children.map Prod.fst).contains name then .error ()
      else .ok (children ++ [(name, .file (joinPath (soFar ++ [name])) dgst)])
  | dirname :: rest => seekDir children soFar dirname rest dgst
  termination_by (parts.length, 1, 0)

/-- The `d.children.setdefault(dirname, Directory(...))` step of
`ZarrChecksumCompiler.add`: find `dirname` among the children (appending a
fresh empty `Directory` at the end if absent, as dict insertion does), fail
on a `File` occupant, and continue the insertion inside it. -/
def seekDir (children : List (String × Node)) (soFar : List String)
    (dirname : String) (rest : List String) (dgst : String) :
    Except Unit (List (String × Node)) :=
  match children with
  | [] =>
      match insertPath [] (soFar ++ [dirname]) rest dgst with
      | .error e => .error e
      | .ok cs => .ok [(dirname, .dir (joinPath (soFar ++ [dirname])) cs)]
  | (k, n) :: tail =>
      if k = dirname then
        match n with
        | .file _ _ => .error ()
        | .dir p cs =>
            match insertPath cs (soFar ++ [dirname]) rest dgst with
            | .error e => .error e
            | .ok cs' => .ok ((k, .dir p cs') :: tail)
      else
        match seekDir tail soFar dirname rest dgst with
        | .error e => .error e
        | .ok tail' => .ok ((k, n) :: tail')
  termination_by (rest.length + 1, 0, children.length)

end

/-- Folding the walker's stream through `ZarrChecksumCompiler.add`, as the
`for path, digest in self.digest_walk(dirpath)` loop of
`IterativeChecksummer.checksum` does (paths already split into components
relative to the walk root). -/
def compileChildren : List (List String × String) → List (String × Node) →
    Except Unit (List (String × Node))
  | [], cs => .ok cs
  | (parts, dgst) :: restPairs, cs =>
      match insertPath cs [] parts dgst with
      | .error e => .error e
      | .ok cs' => compileChildren restPairs cs'

/-- The compiled tree: `ZarrChecksumCompiler.root` is `Directory(path="")`. -/
def compileStream (pairs : List (List String × String)) : Except Unit Node :=
  match compileChildren pairs [] with
  | .error e => .error e
  | .ok cs => .ok (.dir "" cs)

/-- The `files` dict built by `Directory.get_digest`: iterating the children
in insertion order, each `File` child contributes `files[n.path] = n.digest`. -/
def fileEntries : List (String × Node) → List (String × String)
  | [] => []
  | (_, .file p d) :: rest => (p, d) :: fileEntries rest
  | (_, .dir _ _) :: rest => fileEntries rest

mutual

/-- `Directory.get_digest`: one call to the external combination function
with the `files` and `dirs` dicts, both keyed by each child's full relative
`path`. -/
def nodeDigest (c : Combine) : Node → String
  | .file _ d => d
  | .dir _ cs => c (fileEntries cs) (dirEntries c cs)

/-- The `dirs` dict built by `Directory.get_digest`: each `Directory` child
contributes `dirs[n.path] = n.get_digest()`, in insertion order. -/
def dirEntries (c : Combine) : List (String × Node) → List (String × String)
  | [] => []
  | (_, .file _ _) :: rest => dirEntries c rest
  | (_, .dir p cs) :: rest => (p, nodeDigest c (.dir p cs)) :: dirEntries c rest

end

/-- `IterativeChecksummer.checksum`: feed the walk stream into a fresh
`ZarrChecksumCompiler` and ask the root for its digest.  An exception from
the walk or from `add` propagates and aborts the whole call. -/
def checksumFrom (c : Combine) (w : Except Unit (List (List String × String))) :
    Except Unit String :=
  match w with
  | .error e => .error e
  | .ok pairs =>
      match compileStream pairs with
      | .error e => .error e
      | .ok root => .ok (nodeDigest c root)

def syncChecksum (c : Combine) (h : Hash) (t : FSTree) : Except Unit String :=
  checksumFrom c (syncDigestWalk h t)

def oothreadsChecksum (c : Combine) (h : Hash) (sched : List Nat) (t : FSTree) :
    Except Unit String :=
  checksumFrom c (oothreadsDigestWalk h sched t)

def fastioChecksum (c : Combine) (h : Hash) (sched : List Nat) (t : FSTree) :
    Except Unit String :=
  checksumFrom c (fastioDigestWalk h sched t)

def trioChecksum (c : Combine) (h : Hash) (sched : List Nat) (t : FSTree) :
    Except Unit String :=
  checksumFrom c (trioDigestWalk h sched t)

/-!
## The recursive reference checksummer (src/checksummers/recursive.py)

`RecursiveChecksummer.checksum` re-walks the filesystem top-down: for every
entry of the current directory, a regular file is digested into `files`
keyed by its full relative path; a subdirectory is recursed into and its
digest put into `dirs` keyed by its full relative path — except that an
empty subdirectory (`any(p.iterdir())` false) is skipped entirely.  No
`OSError` is caught, so a `badFile` (raising in `md5digest`), a `badDir`
(raising in `any(p.iterdir())`), or a non-directory root (raising in
`Path(dirpath).iterdir()`) aborts the whole call.
-/

mutual

def recEntries (c : Combine) (h : Hash) (π : List String) :
    List (String × FSTree) →
      Except Unit (List (String × String) × List (String × String))
  | [] => .ok ([], [])
  | (n, .file b) :: rest =>
      match recEntries c h π rest with
      | .error e => .error e
      | .ok (fs, ds) => .ok ((joinPath (π ++ [n]), h b) :: fs, ds)
  | (_, .badFile) :: _ => .error ()
  | (n, .dir es) :: rest =>
      if es.isEmpty then recEntries c h π rest
      else
        match recDigest c h (π ++ [n]) es with
        | .error e => .error e
        | .ok d =>
            match recEntries c h π rest with
            | .error e => .error e
            | .ok (fs, ds) => .ok (fs, (joinPath (π ++ [n]), d) :: ds)
  | (_, .badDir) :: _ => .error ()

def recDigest (c : Combine) (h : Hash) (π : List String)
    (es : List (String × FSTree)) : Except Unit String :=
  match recEntries c h π es with
  | .error e => .error e
  | .ok (fs, ds) => .ok (c fs ds)

end

/-- `RecursiveChecksummer.checksum` called on the walk root. -/
def recursiveChecksum (c : Combine) (h : Hash) (t : FSTree) : Except Unit String :=
  match t with
  | .dir es => recDigest c h [] es
  | _ => .error ()

/-!
## The termination-tracking Task Queue
(`JobStack`, src/checksummers/oothreads.py lines 50-106; its cooperative
twin `AsyncJobStack`, src/checksummers/trio.py lines 79-116, has the same
queue, counter and iteration logic with `trio` primitives.)

All queue state is mutated under the one lock, so a state transition is one
critical section.  `queue` holds the pending items with the head of the list
as the deque's right end (`append` pushes there, `pop` pops there — LIFO);
`tasks` is the outstanding-count `_tasks`.  `held` is the number of items
handed to a worker whose `_job_ctx` has not yet run its `finally` block; it
is not a field of the Python object but is determined by the worker
protocol (each item is handed out inside a context manager that retires it
exactly once on exit).
-/

structure JSState where
  queue : List Nat
  tasks : Nat
  held : Nat

/-- `JobStack([root])` / `AsyncJobStack([root])`: the queue starts with the
seed items and `_tasks` equal to their number. -/
def jsInit (seed : List Nat) : JSState := ⟨seed, seed.length, 0⟩

/-- Result of one round of the body of `JobStack.__iter__`'s inner loop,
run under the lock: if `_tasks` is zero the iterator returns ("done"); else
if the queue is empty the worker blocks in `_cond.wait()`; else the top item
is popped and handed out wrapped in `_job_ctx`. -/
inductive TakeRes where
  | done
  | blocked
  | item (v : Nat) (next : JSState)

def takeOrDone (s : JSState) : TakeRes :=
  if s.tasks = 0 then .done
  else
    match s.queue with
    | [] => .blocked
    | v :: rest => .item v ⟨rest, s.tasks, s.held + 1⟩

/-- The atomic transitions of the queue under the worker protocol:
`take` is a successful `__iter__` round (pop, item now held by a worker);
`put` appends a new item and increments `_tasks` (called by a worker while
it holds an item, inside its `with ctx` block); `retire` is the `finally`
block of `_job_ctx` (decrement `_tasks`, release the held item). -/
inductive JSStep : JSState → JSState → Prop where
  | take (s : JSState) (v : Nat) (rest : List Nat) :
      s.tasks ≠ 0 → s.queue = v :: rest →
      JSStep s ⟨rest, s.tasks, s.held + 1⟩
  | put (s : JSState) (v : Nat) :
      s.held ≠ 0 →
      JSStep s ⟨v :: s.queue, s.tasks + 1, s.held⟩
  | retire (s : JSState) :
      s.held ≠ 0 →
      JSStep s ⟨s.queue, s.tasks - 1, s.held - 1⟩

/-- States the queue can reach from the initial state. -/
def JSReachable (seed : List Nat) (s : JSState) : Prop :=
  Relation.ReflTransGen JSStep (jsInit seed) s

/-!
## Canonical digests

To reason about order-independence we compare every checksum against a
canonical digest computed directly from the multiset of (relative path,
digest) pairs, with all mappings brought into a canonical sorted order.
-/

def pairLe (a b : String × String) : Bool :=
  decide (a.1 < b.1) || (decide (a.1 = b.1) && decide (a.2 ≤ b.2))

def sortPairs (l : List (String × String)) : List (String × String) :=
  l.mergeSort pairLe

def strLe (a b : String) : Bool := decide (a ≤ b)

def dedupSort (l : List String) : List String :=
  (l.mergeSort strLe).dedup

/-- The direct-file entries at the current level: pairs whose relative path
is a single component, keyed by full joined path. -/
def levelFiles (soFar : List String) (pairs : List (List String × String)) :
    List (String × String) :=
  pairs.filterMap (fun p =>
    match p.1 with
    | [n] => some (joinPath (soFar ++ [n]), p.2)
    | _ => none)

/-- The pairs lying under immediate subdirectory `k`, with `k` stripped. -/
def stripDir (k : String) (pairs : List (List String × String)) :
    List (List String × String) :=
  pairs.filterMap (fun p =>
    match p.1 with
    | n :: r₁ :: rs => if n = k then some (r₁ :: rs, p.2) else none
    | _ => none)

/-- The immediate subdirectory names occurring in the pair list, sorted and
deduplicated. -/
def subdirNames (pairs : List (List String × String)) : List String :=
  dedupSort (pairs.filterMap (fun p =>
    match p.1 with
    | n :: _ :: _ => some n
    | _ => none))

def pathWeight (pairs : List (List String × String)) : Nat :=
  (pairs.map (fun p => p.1.length)).sum

theorem stripDir_cons_hit (k : String) (r₁ : String) (rs : List String)
    (d : String) (rest : List (List String × String)) :
    stripDir k ((k :: r₁ :: rs, d) :: rest) = (r₁ :: rs, d) :: stripDir k rest := by
  simp [stripDir, List.filterMap_cons]

theorem stripDir_cons_miss (k n : String) (r₁ : String) (rs : List String)
    (d : String) (rest : List (List String × String)) (hk : n ≠ k) :
    stripDir k ((n :: r₁ :: rs, d) :: rest) = stripDir k rest := by
  simp [stripDir, List.filterMap_cons, hk]

theorem stripDir_cons_nil (k : String) (d : String)
    (rest : List (List String × String)) :
    stripDir k (([], d) :: rest) = stripDir k rest := by
  simp [stripDir, List.filterMap_cons]

theorem stripDir_cons_single (k n : String) (d : String)
    (rest : List (List String × String)) :
    stripDir k (([n], d) :: rest) = stripDir k rest := by
  simp [stripDir, List.filterMap_cons]

theorem pathWeight_cons (p : List String × String)
    (l : List (List String × String)) :
    pathWeight (p :: l) = p.1.length + pathWeight l := by
  simp [pathWeight]

theorem pathWeight_strip_le (k : String) (pairs : List (List String × String)) :
    pathWeight (stripDir k pairs) ≤ pathWeight pairs := by
  induction pairs with
  | nil => simp [stripDir, pathWeight]
  | cons p rest ih =>
      obtain ⟨path, d⟩ := p
      match path with
      | [] => rw [stripDir_cons_nil, pathWeight_cons]; omega
      | [n] => rw [stripDir_cons_single, pathWeight_cons]; omega
      | n :: r₁ :: rs =>
          by_cases hk : n = k
          · subst hk
            rw [stripDir_cons_hit, pathWeight_cons, pathWeight_cons]
            simp only [List.length_cons]
            omega
          · rw [stripDir_cons_miss k n r₁ rs d rest hk, pathWeight_cons]
            omega

theorem pathWeight_strip_lt (k : String) (pairs : List (List String × String))
    (hw : ∃ p ∈ pairs, ∃ r₁ rs, p.1 = k :: r₁ :: rs) :
    pathWeight (stripDir k pairs) < pathWeight pairs := by
  induction pairs with
  | nil => simp at hw
  | cons p rest ih =>
      obtain ⟨path, d⟩ := p
      rcases hw with ⟨q, hq, r₁, rs, hqr⟩
      rcases List.mem_cons.1 hq with hq | hq
      · subst hq
        simp only at hqr
        subst hqr
        have hle := pathWeight_strip_le k rest
        rw [stripDir_cons_hit, pathWeight_cons, pathWeight_cons]
        simp only [List.length_cons]
        omega
      · have hr := ih ⟨q, hq, r₁, rs, hqr⟩
        match path with
        | [] => rw [stripDir_cons_nil, pathWeight_cons]; omega
        | [n] => rw [stripDir_cons_single, pathWeight_cons]; omega
        | n :: s₁ :: ss =>
            by_cases hk : n = k
            · subst hk
              rw [stripDir_cons_hit, pathWeight_cons, pathWeight_cons]
              simp only [List.length_cons]
              omega
            · rw [stripDir_cons_miss k n s₁ ss d rest hk, pathWeight_cons]
              omega

theorem mem_subdirNames (pairs : List (List String × String)) (k : String)
    (hk : k ∈ subdirNames pairs) :
    ∃ p ∈ pairs, ∃ r₁ rs, p.1 = k :: r₁ :: rs := by
  have h₁ : k ∈ (pairs.filterMap (fun p =>
      match p.1 with
      | n :: _ :: _ => some n
      | _ => none)).mergeSort strLe := List.mem_dedup.1 hk
  have h₂ := (List.mergeSort_perm (pairs.filterMap (fun p =>
      match p.1 with
      | n :: _ :: _ => some n
      | _ => none)) strLe).mem_iff.1 h₁
  rcases List.mem_filterMap.1 h₂ with ⟨p, hp, hmatch⟩
  refine ⟨p, hp, ?_⟩
  match hpath : p.1 with
  | [] => rw [hpath] at hmatch; simp at hmatch
  | [n] => rw [hpath] at hmatch; simp at hmatch
  | n :: r₁ :: rs =>
      rw [hpath] at hmatch
      simp only [Option.some_inj] at hmatch
      exact ⟨r₁, rs, by rw [hmatch]⟩

/-- The canonical digest of a multiset of (relative path, digest) pairs:
files at this level and recursively-digested subdirectories, both keyed by
full joined path and brought into sorted order before being handed to the
combination function. -/
def canonLevel (c : Combine) (soFar : List String)
    (pairs : List (List String × String)) : String :=
  c (sortPairs (levelFiles soFar pairs))
    ((subdirNames pairs).attach.map (fun k =>
      (joinPath (soFar ++ [k.1]), canonLevel c (soFar ++ [k.1]) (stripDir k.1 pairs))))
  termination_by pathWeight pairs
  decreasing_by
    exact pathWeight_strip_lt k.1 pairs (mem_subdirNames pairs k.1 k.2)

/-!
## Sorting facts
-/

theorem pairLe_trans (a b c : String × String) (hab : pairLe a b = true)
    (hbc : pairLe b c = true) : pairLe a c = true := by
  simp only [pairLe, Bool.or_eq_true, Bool.and_eq_true, decide_eq_true_eq] at *
  rcases hab with hab | ⟨hab₁, hab₂⟩ <;> rcases hbc with hbc | ⟨hbc₁, hbc₂⟩
  · exact Or.inl (lt_trans hab hbc)
  · exact Or.inl (hbc₁ ▸ hab)
  · exact Or.inl (hab₁ ▸ hbc)
  · exact Or.inr ⟨hab₁.trans hbc₁, le_trans hab₂ hbc₂⟩

theorem pairLe_total (a b : String × String) : (pairLe a b || pairLe b a) = true := by
  simp only [pairLe, Bool.or_eq_true, Bool.and_eq_true, decide_eq_true_eq]
  rcases lt_trichotomy a.1 b.1 with hlt | heq | hgt
  · exact Or.inl (Or.inl hlt)
  · rcases le_total a.2 b.2 with hle | hle
    · exact Or.inl (Or.inr ⟨heq, hle⟩)
    · exact Or.inr (Or.inr ⟨heq.symm, hle⟩)
  · exact Or.inr (Or.inl hgt)

theorem pairLe_antisymm (a b : String × String) (hab : pairLe a b = true)
    (hba : pairLe b a = true) : a = b := by
  simp only [pairLe, Bool.or_eq_true, Bool.and_eq_true, decide_eq_true_eq] at *
  rcases hab with hab | ⟨hab₁, hab₂⟩ <;> rcases hba with hba | ⟨hba₁, hba₂⟩
  · exact absurd hba (lt_asymm hab)
  · exact absurd hab (hba₁ ▸ lt_irrefl _)
  · exact absurd hba (hab₁ ▸ lt_irrefl _)
  · exact Prod.ext hab₁ (le_antisymm hab₂ hba₂)

theorem sortPairs_perm (l : List (String × String)) : (sortPairs l).Perm l :=
  List.mergeSort_perm l pairLe

theorem sortPairs_congr {l₁ l₂ : List (String × String)} (hp : l₁.Perm l₂) :
    sortPairs l₁ = sortPairs l₂ := by
  haveI : IsAntisymm (String × String) (fun a b => pairLe a b = true) :=
    ⟨pairLe_antisymm⟩
  exact List.eq_of_perm_of_sorted
    ((sortPairs_perm l₁).trans (hp.trans (sortPairs_perm l₂).symm))
    (List.sorted_mergeSort pairLe_trans pairLe_total l₁)
    (List.sorted_mergeSort pairLe_trans pairLe_total l₂)

theorem strLe_trans (a b c : String) (hab : strLe a b = true)
    (hbc : strLe b c = true) : strLe a c = true := by
  simp only [strLe, decide_eq_true_eq] at *
  exact le_trans hab hbc

theorem strLe_total (a b : String) : (strLe a b || strLe b a) = true := by
  simp only [strLe, Bool.or_eq_true, decide_eq_true_eq]
  exact le_total a b

theorem strLe_antisymm (a b : String) (hab : strLe a b = true)
    (hba : strLe b a = true) : a = b := by
  simp only [strLe, decide_eq_true_eq] at *
  exact le_antisymm hab hba

theorem sortStrings_congr {l₁ l₂ : List String} (hp : l₁.Perm l₂) :
    l₁.mergeSort strLe = l₂.mergeSort strLe := by
  haveI : IsAntisymm String (fun a b => strLe a b = true) := ⟨strLe_antisymm⟩
  exact List.eq_of_perm_of_sorted
    ((List.mergeSort_perm l₁ strLe).trans (hp.trans (List.mergeSort_perm l₂ strLe).symm))
    (List.sorted_mergeSort strLe_trans strLe_total l₁)
    (List.sorted_mergeSort strLe_trans strLe_total l₂)

theorem dedupSort_congr {l₁ l₂ : List String} (hp : l₁.Perm l₂) :
    dedupSort l₁ = dedupSort l₂ := by
  unfold dedupSort
  rw [sortStrings_congr hp]

theorem mem_dedupSort (l : List String) (x : String) :
    x ∈ dedupSort l ↔ x ∈ l := by
  unfold dedupSort
  rw [List.mem_dedup]
  exact (List.mergeSort_perm l strLe).mem_iff

theorem dedupSort_nodup (l : List String) : (dedupSort l).Nodup :=
  List.nodup_dedup _

theorem dedupSort_sorted (l : List String) :
    List.Sorted (fun a b => strLe a b = true) (dedupSort l) :=
  List.Pairwise.sublist (List.dedup_sublist _)
    (List.sorted_mergeSort strLe_trans strLe_total l)

/-- Two string lists with the same members have the same sorted
deduplication. -/
theorem dedupSort_eq_of_mem_iff {l₁ l₂ : List String}
    (hm : ∀ x, x ∈ l₁ ↔ x ∈ l₂) : dedupSort l₁ = dedupSort l₂ := by
  haveI : IsAntisymm String (fun a b => strLe a b = true) := ⟨strLe_antisymm⟩
  refine List.eq_of_perm_of_sorted ?_ (dedupSort_sorted l₁) (dedupSort_sorted l₂)
  refine (List.perm_ext_iff_of_nodup (dedupSort_nodup l₁) (dedupSort_nodup l₂)).2 ?_
  intro x
  rw [mem_dedupSort, mem_dedupSort]
  exact hm x

/-- If a list of strings is already duplicate-free, `dedupSort` just sorts. -/
theorem dedupSort_of_nodup {l : List String} (hn : l.Nodup) :
    dedupSort l = l.mergeSort strLe := by
  unfold dedupSort
  exact List.Nodup.dedup (((List.mergeSort_perm l strLe)).nodup_iff.2 hn)

theorem attach_map_eq {α β : Type} (l : List α) (g : α → β) :
    l.attach.map (fun k => g k.1) = l.map g := by
  simp

/-- Unfolding lemma for `canonLevel` without the termination bookkeeping. -/
theorem canonLevel_eq (c : Combine) (soFar : List String)
    (pairs : List (List String × String)) :
    canonLevel c soFar pairs =
      c (sortPairs (levelFiles soFar pairs))
        ((subdirNames pairs).map (fun k =>
          (joinPath (soFar ++ [k]), canonLevel c (soFar ++ [k]) (stripDir k pairs)))) := by
  rw [canonLevel]
  congr 1
  exact attach_map_eq (subdirNames pairs)
    (fun k => (joinPath (soFar ++ [k]), canonLevel c (soFar ++ [k]) (stripDir k pairs)))

theorem canonLevel_congr_aux (c : Combine) :
    ∀ w soFar (pairs₁ pairs₂ : List (List String × String)),
      pathWeight pairs₁ < w → pairs₁.Perm pairs₂ →
      canonLevel c soFar pairs₁ = canonLevel c soFar pairs₂ := by
  intro w
  induction w with
  | zero => intro _ _ _ hw _; omega
  | succ n ih =>
      intro soFar p₁ p₂ hw hperm
      rw [canonLevel_eq, canonLevel_eq]
      have hnames : subdirNames p₁ = subdirNames p₂ :=
        dedupSort_congr (hperm.filterMap _)
      have hfiles : sortPairs (levelFiles soFar p₁) = sortPairs (levelFiles soFar p₂) :=
        sortPairs_congr (hperm.filterMap _)
      rw [hfiles]
      congr 1
      rw [← hnames]
      refine List.map_congr_left ?_
      intro k hk
      have hlt : pathWeight (stripDir k p₁) < pathWeight p₁ :=
        pathWeight_strip_lt k p₁ (mem_subdirNames p₁ k hk)
      have := ih (soFar ++ [k]) (stripDir k p₁) (stripDir k p₂)
        (by omega) (hperm.filterMap _)
      rw [this]

/-- `canonLevel` only depends on the multiset of (path, digest) pairs. -/
theorem canonLevel_congr (c : Combine) (soFar : List String)
    {pairs₁ pairs₂ : List (List String × String)} (hp : pairs₁.Perm pairs₂) :
    canonLevel c soFar pairs₁ = canonLevel c soFar pairs₂ :=
  canonLevel_congr_aux c (pathWeight pairs₁ + 1) soFar pairs₁ pairs₂ (by omega) hp

/-!
## Walker correctness: what a walk emits
-/

/-- The work items a worker `put`s while scanning an entry list (everything
`is_dir()`, in listing order), rooted at `π`. -/
def dirJobs (π : List String) : List (String × FSTree) → List (List String × FSTree)
  | [] => []
  | (n, .dir es) :: rest => (π ++ [n], FSTree.dir es) :: dirJobs π rest
  | (n, .badDir) :: rest => (π ++ [n], FSTree.badDir) :: dirJobs π rest
  | (_, .file _) :: rest => dirJobs π rest
  | (_, .badFile) :: rest => dirJobs π rest

/-- The pairs a worker emits while scanning an entry list (the regular
files, in listing order), rooted at `π`. -/
def dirFiles (h : Hash) (π : List String) :
    List (String × FSTree) → List (List String × String)
  | [] => []
  | (n, .file c) :: rest => (π ++ [n], h c) :: dirFiles h π rest
  | (_, .badFile) :: rest => dirFiles h π rest
  | (_, .dir _) :: rest => dirFiles h π rest
  | (_, .badDir) :: rest => dirFiles h π rest

theorem processEntries_eq (h : Hash) (π : List String)
    (es : List (String × FSTree)) (hnb : noBadFileEntries es = true) :
    processEntries h π es = (dirJobs π es, dirFiles h π es, true) := by
  induction es with
  | nil => rfl
  | cons e rest ih =>
      obtain ⟨n, t⟩ := e
      rw [noBadFileEntries] at hnb
      simp only [Bool.and_eq_true] at hnb
      cases t with
      | file c => simp [processEntries, dirJobs, dirFiles, ih hnb.2]
      | badFile => simp [noBadFile] at hnb
      | dir es' => simp [processEntries, dirJobs, dirFiles, ih hnb.2]
      | badDir => simp [processEntries, dirJobs, dirFiles, ih hnb.2]

/-- The pairs that a complete, successful scan of one work item and of all
work transitively discovered from it must produce. -/
def itemFiles (h : Hash) (it : List String × FSTree) : List (List String × String) :=
  match it.2 with
  | .dir es => prefixed it.1 (allFilesEntries h es)
  | _ => []

theorem prefixed_append (π : List String) (a b : List (List String × String)) :
    prefixed π (a ++ b) = prefixed π a ++ prefixed π b := by
  simp [prefixed]

theorem prefixed_child (π : List String) (n : String)
    (l : List (List String × String)) :
    prefixed π (l.map (fun p => (n :: p.1, p.2))) = prefixed (π ++ [n]) l := by
  simp only [prefixed, List.map_map]
  refine List.map_congr_left ?_
  intro p _
  simp

theorem perm_swap_append {α : Type} (a b c : List α) :
    (a ++ (b ++ c)).Perm (b ++ (a ++ c)) := by
  rw [← List.append_assoc, ← List.append_assoc]
  exact List.Perm.append_right c List.perm_append_comm

/-- Scanning a directory accounts for all files under it: the direct files
are emitted now and the rest are exactly the files under the discovered
work items. -/
theorem allFiles_decomp (h : Hash) (π : List String)
    (es : List (String × FSTree)) :
    (prefixed π (allFilesEntries h es)).Perm
      (dirFiles h π es ++ (dirJobs π es).flatMap (itemFiles h)) := by
  induction es with
  | nil => simp [allFilesEntries, prefixed, dirFiles, dirJobs]
  | cons e rest ih =>
      obtain ⟨n, t⟩ := e
      cases t with
      | file c =>
          simp only [allFilesEntries, prefixed, List.map_cons, dirFiles, dirJobs,
            List.cons_append]
          exact (ih.cons _)
      | badFile =>
          simp only [allFilesEntries, dirFiles, dirJobs]
          exact ih
      | dir es' =>
          rw [allFilesEntries, prefixed_append, prefixed_child, dirFiles, dirJobs,
            List.flatMap_cons]
          have hif : itemFiles h (π ++ [n], FSTree.dir es') =
              prefixed (π ++ [n]) (allFilesEntries h es') := rfl
          rw [hif]
          have h1 : (prefixed (π ++ [n]) (allFilesEntries h es') ++
                prefixed π (allFilesEntries h rest)).Perm
              (prefixed (π ++ [n]) (allFilesEntries h es') ++
                (dirFiles h π rest ++ (dirJobs π rest).flatMap (itemFiles h))) :=
            List.Perm.append_left _ ih
          exact h1.trans (perm_swap_append _ _ _)
      | badDir =>
          rw [allFilesEntries, dirFiles, dirJobs, List.flatMap_cons]
          have hif : itemFiles h (π ++ [n], FSTree.badDir) = [] := rfl
          rw [hif, List.nil_append]
          exact ih

theorem getD_mem_of_lt {α : Type} (l : List α) (i : Nat) (d : α)
    (hi : i < l.length) : l.getD i d ∈ l := by
  induction l generalizing i with
  | nil => simp at hi
  | cons x xs ih =>
      cases i with
      | zero => simp [List.getD]
      | succ j =>
          have hj : j < xs.length := by simpa using hi
          simp only [List.getD_cons_succ]
          exact List.mem_cons_of_mem x (ih j hj)

mutual

theorem errFree_noBadFile : ∀ t, errFree t = true → noBadFile t = true
  | .file _, _ => rfl
  | .badFile, hc => by simp [errFree] at hc
  | .dir es, hc => by
      rw [errFree] at hc
      rw [noBadFile]
      exact errFreeEntries_noBadFile es hc
  | .badDir, hc => by simp [errFree] at hc

theorem errFreeEntries_noBadFile :
    ∀ es, errFreeEntries es = true → noBadFileEntries es = true
  | [], _ => rfl
  | (n, t) :: rest, hc => by
      rw [errFreeEntries] at hc
      simp only [Bool.and_eq_true] at hc
      rw [noBadFileEntries]
      simp only [Bool.and_eq_true]
      exact ⟨errFree_noBadFile t hc.1, errFreeEntries_noBadFile rest hc.2⟩

end

theorem dirJobs_size (π : List String) (es : List (String × FSTree)) :
    pendingSize (dirJobs π es) ≤ sizeEntries es := by
  induction es with
  | nil => simp [dirJobs, pendingSize]
  | cons e rest ih =>
      obtain ⟨n, t⟩ := e
      cases t with
      | file c =>
          rw [dirJobs, sizeEntries]
          omega
      | badFile =>
          rw [dirJobs, sizeEntries]
          omega
      | dir es' =>
          rw [dirJobs, sizeEntries]
          have : pendingSize ((π ++ [n], FSTree.dir es') :: dirJobs π rest) =
              (FSTree.dir es').size + pendingSize (dirJobs π rest) := by
            simp [pendingSize]
          rw [this]
          omega
      | badDir =>
          rw [dirJobs, sizeEntries]
          have : pendingSize ((π ++ [n], FSTree.badDir) :: dirJobs π rest) =
              FSTree.badDir.size + pendingSize (dirJobs π rest) := by
            simp [pendingSize]
          rw [this]
          omega

/-- Work discovered while scanning an error-free listing: every job is an
error-free directory. -/
theorem dirJobs_errFree (π : List String) (es : List (String × FSTree))
    (hef : errFreeEntries es = true) :
    ∀ j ∈ dirJobs π es, ∃ es', j.2 = FSTree.dir es' ∧ errFreeEntries es' = true := by
  induction es with
  | nil => simp [dirJobs]
  | cons e rest ih =>
      obtain ⟨n, t⟩ := e
      rw [errFreeEntries] at hef
      simp only [Bool.and_eq_true] at hef
      cases t with
      | file c => exact fun j hj => ih hef.2 j (by simpa [dirJobs] using hj)
      | badFile => simp [errFree] at hef
      | dir es' =>
          intro j hj
          rw [dirJobs] at hj
          rcases List.mem_cons.1 hj with hj | hj
          · subst hj
            rw [errFree] at hef
            exact ⟨es', rfl, hef.1⟩
          · exact ih hef.2 j hj
      | badDir => simp [errFree] at hef

/-- Work discovered while scanning a listing with no bad files: every job
subtree still has no bad files. -/
theorem dirJobs_noBadFile (π : List String) (es : List (String × FSTree))
    (hnb : noBadFileEntries es = true) :
    ∀ j ∈ dirJobs π es, noBadFile j.2 = true := by
  induction es with
  | nil => simp [dirJobs]
  | cons e rest ih =>
      obtain ⟨n, t⟩ := e
      rw [noBadFileEntries] at hnb
      simp only [Bool.and_eq_true] at hnb
      cases t with
      | file c => exact fun j hj => ih hnb.2 j (by simpa [dirJobs] using hj)
      | badFile => simp [noBadFile] at hnb
      | dir es' =>
          intro j hj
          rw [dirJobs] at hj
          rcases List.mem_cons.1 hj with hj | hj
          · subst hj
            exact hnb.1
          · exact ih hnb.2 j hj
      | badDir =>
          intro j hj
          rw [dirJobs] at hj
          rcases List.mem_cons.1 hj with hj | hj
          · subst hj
            rfl
          · exact ih hnb.2 j hj

/-- Soundness and completeness of every scheduled walk over an error-free
tree, for every strategy: the walk succeeds and emits exactly the files
under the pending items, each exactly once (as a permutation of the
specification list). -/
theorem walkAll_spec (h : Hash) :
    ∀ (N : Nat) (catchErr : Bool) (sched : List Nat)
      (pending : List (List String × FSTree)),
      pendingSize pending ≤ N →
      (∀ it ∈ pending, ∃ es, it.2 = FSTree.dir es ∧ errFreeEntries es = true) →
      ∃ l, walkAll catchErr h sched pending = .ok l ∧
        l.Perm (pending.flatMap (itemFiles h)) := by
  intro N
  induction N with
  | zero =>
      intro catchErr sched pending hN hok
      match pending with
      | [] => exact ⟨[], by simp [walkAll], by simp⟩
      | p :: ps =>
          exfalso
          have hp := size_pos p.2
          have : pendingSize (p :: ps) = p.2.size + pendingSize ps := by
            simp [pendingSize]
          omega
  | succ n ih =>
      intro catchErr sched pending hN hok
      match pending with
      | [] => exact ⟨[], by simp [walkAll], by simp⟩
      | p :: ps =>
          simp only [walkAll]
          generalize hidx : sched.headD 0 % (p :: ps).length = i
          have hi : i < (p :: ps).length := hidx ▸ Nat.mod_lt _ (by simp)
          generalize hit : (p :: ps).getD i ([], FSTree.badDir) = item
          have hmem : item ∈ p :: ps := hit ▸ getD_mem_of_lt _ _ _ hi
          obtain ⟨π, t⟩ := item
          obtain ⟨es, hes, hef⟩ := hok _ hmem
          simp only at hes
          subst hes
          rw [show processItem h (π, FSTree.dir es) = processEntries h π es from rfl,
            processEntries_eq h π es (errFreeEntries_noBadFile es hef)]
          simp only [Bool.true_or, if_true]
          -- size of the new pending list
          have hsz := pendingSize_eraseIdx (p :: ps) i hi ([], FSTree.badDir)
          rw [hit] at hsz
          have hds := dirJobs_size π es
          have hdirsz : (π, FSTree.dir es).2.size = 1 + sizeEntries es := by
            simp [FSTree.size]
          have hpcons : pendingSize (p :: ps) ≤ n + 1 := hN
          have hnew : pendingSize ((p :: ps).eraseIdx i ++ dirJobs π es) ≤ n := by
            rw [pendingSize_append]
            omega
          -- the new pending items are still error-free directories
          have hok' : ∀ it ∈ (p :: ps).eraseIdx i ++ dirJobs π es,
              ∃ es', it.2 = FSTree.dir es' ∧ errFreeEntries es' = true := by
            intro it hitm
            rcases List.mem_append.1 hitm with hm | hm
            · exact hok it (List.Sublist.mem hm (List.eraseIdx_sublist _ _))
            · exact dirJobs_errFree π es hef it hm
          obtain ⟨l', hl', hp'⟩ := ih catchErr sched.tail _ hnew hok'
          rw [hl']
          refine ⟨dirFiles h π es ++ l', rfl, ?_⟩
          -- multiset bookkeeping
          have hperm := getD_cons_eraseIdx_perm (p :: ps) i hi ([], FSTree.badDir)
          rw [hit] at hperm
          have hpend : ((p :: ps).flatMap (itemFiles h)).Perm
              (itemFiles h (π, FSTree.dir es) ++
                ((p :: ps).eraseIdx i).flatMap (itemFiles h)) := by
            have := List.Perm.flatMap_right (itemFiles h) hperm.symm
            simpa [List.flatMap_cons] using this
          have hA2 : (itemFiles h (π, FSTree.dir es)).Perm
              (dirFiles h π es ++ (dirJobs π es).flatMap (itemFiles h)) :=
            allFiles_decomp h π es
          have s1 : (dirFiles h π es ++ l').Perm
              (dirFiles h π es ++
                (((p :: ps).eraseIdx i).flatMap (itemFiles h) ++
                  (dirJobs π es).flatMap (itemFiles h))) := by
            refine List.Perm.append_left _ ?_
            rw [← List.flatMap_append]
            exact hp'
          have s2 : (dirFiles h π es ++
              (((p :: ps).eraseIdx i).flatMap (itemFiles h) ++
                (dirJobs π es).flatMap (itemFiles h))).Perm
              (dirFiles h π es ++
                ((dirJobs π es).flatMap (itemFiles h) ++
                  ((p :: ps).eraseIdx i).flatMap (itemFiles h))) :=
            List.Perm.append_left _ List.perm_append_comm
          have s3 : (dirFiles h π es ++
              ((dirJobs π es).flatMap (itemFiles h) ++
                ((p :: ps).eraseIdx i).flatMap (itemFiles h))) =
              ((dirFiles h π es ++ (dirJobs π es).flatMap (itemFiles h)) ++
                ((p :: ps).eraseIdx i).flatMap (itemFiles h)) := by
            rw [List.append_assoc]
          have s4 := List.Perm.append_right
            (((p :: ps).eraseIdx i).flatMap (itemFiles h)) hA2.symm
          exact ((s1.trans s2).trans (s3 ▸ List.Perm.refl _)).trans
            ((s3 ▸ s4).trans hpend.symm)

/-- When a directory listing fails (`errFree` is false somewhere below) there
is an unscannable job among the discovered work. -/
theorem dirJobs_bad (π : List String) (es : List (String × FSTree))
    (hnb : noBadFileEntries es = true) (hbad : errFreeEntries es = false) :
    ∃ j ∈ dirJobs π es, errFree j.2 = false := by
  induction es with
  | nil => simp [errFreeEntries] at hbad
  | cons e rest ih =>
      obtain ⟨n, t⟩ := e
      rw [noBadFileEntries] at hnb
      simp only [Bool.and_eq_true] at hnb
      rw [errFreeEntries] at hbad
      simp only [Bool.and_eq_false_iff] at hbad
      cases t with
      | file c =>
          rcases hbad with hbad | hbad
          · simp [errFree] at hbad
          · obtain ⟨j, hj, hjb⟩ := ih hnb.2 hbad
            exact ⟨j, by simpa [dirJobs] using hj, hjb⟩
      | badFile => simp [noBadFile] at hnb
      | dir es' =>
          rcases hbad with hbad | hbad
          · exact ⟨(π ++ [n], FSTree.dir es'),
              by simp [dirJobs], by rw [errFree] at hbad ⊢; exact hbad⟩
          · obtain ⟨j, hj, hjb⟩ := ih hnb.2 hbad
            exact ⟨j, by rw [dirJobs]; exact List.mem_cons_of_mem _ hj, hjb⟩
      | badDir =>
          exact ⟨(π ++ [n], FSTree.badDir), by simp [dirJobs], rfl⟩

/-- A scheduled walk with the worker-boundary `OSError` handler (the
`oothreads` and `fastio` strategies) over a tree with no bad files: the walk
always succeeds, and emits exactly the files reachable through scannable
directories (an unscannable subtree is silently absent). -/
theorem walkAll_spec_catch (h : Hash) :
    ∀ (N : Nat) (sched : List Nat) (pending : List (List String × FSTree)),
      pendingSize pending ≤ N →
      (∀ it ∈ pending, noBadFile it.2 = true) →
      ∃ l, walkAll true h sched pending = .ok l ∧
        l.Perm (pending.flatMap (itemFiles h)) := by
  intro N
  induction N with
  | zero =>
      intro sched pending hN hok
      match pending with
      | [] => exact ⟨[], by simp [walkAll], by simp⟩
      | p :: ps =>
          exfalso
          have hp := size_pos p.2
          have : pendingSize (p :: ps) = p.2.size + pendingSize ps := by
            simp [pendingSize]
          omega
  | succ n ih =>
      intro sched pending hN hok
      match pending with
      | [] => exact ⟨[], by simp [walkAll], by simp⟩
      | p :: ps =>
          simp only [walkAll]
          generalize hidx : sched.headD 0 % (p :: ps).length = i
          have hi : i < (p :: ps).length := hidx ▸ Nat.mod_lt _ (by simp)
          generalize hit : (p :: ps).getD i ([], FSTree.badDir) = item
          have hmem : item ∈ p :: ps := hit ▸ getD_mem_of_lt _ _ _ hi
          obtain ⟨π, t⟩ := item
          have hnb := hok _ hmem
          simp only at hnb
          have hsz := pendingSize_eraseIdx (p :: ps) i hi ([], FSTree.badDir)
          rw [hit] at hsz
          have hperm := getD_cons_eraseIdx_perm (p :: ps) i hi ([], FSTree.badDir)
          rw [hit] at hperm
          have hpcons : pendingSize (p :: ps) ≤ n + 1 := hN
          -- common facts for the trivial (caught-error) item cases
          have htriv : ∀ (hpi : processItem h (π, t) = ([], [], false))
              (hif : itemFiles h (π, t) = []),
              ∃ l, (if ((processItem h (π, t)).2.2 || true) = true then
                  match walkAll true h sched.tail
                      ((p :: ps).eraseIdx i ++ (processItem h (π, t)).1) with
                  | Except.error e => Except.error e
                  | Except.ok l => Except.ok ((processItem h (π, t)).2.1 ++ l)
                else Except.error ()) = Except.ok l ∧
                l.Perm ((p :: ps).flatMap (itemFiles h)) := by
            intro hpi hif
            rw [hpi]
            simp only [Bool.or_true, if_true, List.append_nil]
            have hnew : pendingSize ((p :: ps).eraseIdx i) ≤ n := by
              have ht1 := size_pos t
              have hsz' : pendingSize ((p :: ps).eraseIdx i) + t.size =
                  pendingSize (p :: ps) := by simpa using hsz
              omega
            have hok' : ∀ it ∈ (p :: ps).eraseIdx i, noBadFile it.2 = true :=
              fun it hm => hok it (List.Sublist.mem hm (List.eraseIdx_sublist _ _))
            obtain ⟨l', hl', hp'⟩ := ih sched.tail _ hnew hok'
            rw [hl']
            refine ⟨l', rfl, ?_⟩
            have hpend : ((p :: ps).flatMap (itemFiles h)).Perm
                (itemFiles h (π, t) ++ ((p :: ps).eraseIdx i).flatMap (itemFiles h)) := by
              have := List.Perm.flatMap_right (itemFiles h) hperm.symm
              simpa [List.flatMap_cons] using this
            rw [hif, List.nil_append] at hpend
            exact hp'.trans hpend.symm
          cases t with
          | file c => exact htriv rfl rfl
          | badFile => simp [noBadFile] at hnb
          | badDir => exact htriv rfl rfl
          | dir es =>
              rw [show processItem h (π, FSTree.dir es) = processEntries h π es from rfl,
                processEntries_eq h π es hnb]
              simp only [Bool.true_or, if_true]
              have hds := dirJobs_size π es
              have hdirsz : (π, FSTree.dir es).2.size = 1 + sizeEntries es := by
                simp [FSTree.size]
              have hnew : pendingSize ((p :: ps).eraseIdx i ++ dirJobs π es) ≤ n := by
                rw [pendingSize_append]
                omega
              have hok' : ∀ it ∈ (p :: ps).eraseIdx i ++ dirJobs π es,
                  noBadFile it.2 = true := by
                intro it hitm
                rcases List.mem_append.1 hitm with hm | hm
                · exact hok it (List.Sublist.mem hm (List.eraseIdx_sublist _ _))
                · exact dirJobs_noBadFile π es hnb it hm
              obtain ⟨l', hl', hp'⟩ := ih sched.tail _ hnew hok'
              rw [hl']
              refine ⟨dirFiles h π es ++ l', rfl, ?_⟩
              have hpend : ((p :: ps).flatMap (itemFiles h)).Perm
                  (itemFiles h (π, FSTree.dir es) ++
                    ((p :: ps).eraseIdx i).flatMap (itemFiles h)) := by
                have := List.Perm.flatMap_right (itemFiles h) hperm.symm
                simpa [List.flatMap_cons] using this
              have hA2 : (itemFiles h (π, FSTree.dir es)).Perm
                  (dirFiles h π es ++ (dirJobs π es).flatMap (itemFiles h)) :=
                allFiles_decomp h π es
              have s1 : (dirFiles h π es ++ l').Perm
                  (dirFiles h π es ++
                    (((p :: ps).eraseIdx i).flatMap (itemFiles h) ++
                      (dirJobs π es).flatMap (itemFiles h))) := by
                refine List.Perm.append_left _ ?_
                rw [← List.flatMap_append]
                exact hp'
              have s2 : (dirFiles h π es ++
                  (((p :: ps).eraseIdx i).flatMap (itemFiles h) ++
                    (dirJobs π es).flatMap (itemFiles h))).Perm
                  (dirFiles h π es ++
                    ((dirJobs π es).flatMap (itemFiles h) ++
                      ((p :: ps).eraseIdx i).flatMap (itemFiles h))) :=
                List.Perm.append_left _ List.perm_append_comm
              have s3 : (dirFiles h π es ++
                  ((dirJobs π es).flatMap (itemFiles h) ++
                    ((p :: ps).eraseIdx i).flatMap (itemFiles h))) =
                  ((dirFiles h π es ++ (dirJobs π es).flatMap (itemFiles h)) ++
                    ((p :: ps).eraseIdx i).flatMap (itemFiles h)) := by
                rw [List.append_assoc]
              have s4 := List.Perm.append_right
                (((p :: ps).eraseIdx i).flatMap (itemFiles h)) hA2.symm
              exact ((s1.trans s2).trans (s3 ▸ List.Perm.refl _)).trans
                ((s3 ▸ s4).trans hpend.symm)

/-- Without the worker-boundary handler (the `sync` and `trio` strategies) a
walk that will encounter an `OSError` aborts as a whole: if some pending
item's subtree is not error-free (and file reads themselves do not fail),
every schedule ends in the error. -/
theorem walkAll_error (h : Hash) :
    ∀ (N : Nat) (sched : List Nat) (pending : List (List String × FSTree)),
      pendingSize pending ≤ N →
      (∀ it ∈ pending, noBadFile it.2 = true) →
      (∃ it ∈ pending, errFree it.2 = false) →
      walkAll false h sched pending = .error () := by
  intro N
  induction N with
  | zero =>
      intro sched pending hN hok hbad
      match pending with
      | [] =>
          obtain ⟨it, hit, _⟩ := hbad
          exact absurd hit (List.not_mem_nil it)
      | p :: ps =>
          exfalso
          have hp := size_pos p.2
          have : pendingSize (p :: ps) = p.2.size + pendingSize ps := by
            simp [pendingSize]
          omega
  | succ n ih =>
      intro sched pending hN hok hbad
      match pending with
      | [] =>
          obtain ⟨it, hit, _⟩ := hbad
          exact absurd hit (List.not_mem_nil it)
      | p :: ps =>
          simp only [walkAll]
          generalize hidx : sched.headD 0 % (p :: ps).length = i
          have hi : i < (p :: ps).length := hidx ▸ Nat.mod_lt _ (by simp)
          generalize hit : (p :: ps).getD i ([], FSTree.badDir) = item
          have hmem : item ∈ p :: ps := hit ▸ getD_mem_of_lt _ _ _ hi
          obtain ⟨π, t⟩ := item
          have hnb := hok _ hmem
          simp only at hnb
          have hsz := pendingSize_eraseIdx (p :: ps) i hi ([], FSTree.badDir)
          rw [hit] at hsz
          have hperm := getD_cons_eraseIdx_perm (p :: ps) i hi ([], FSTree.badDir)
          rw [hit] at hperm
          cases t with
          | file c => rfl
          | badFile => simp [noBadFile] at hnb
          | badDir => rfl
          | dir es =>
              rw [show processItem h (π, FSTree.dir es) = processEntries h π es from rfl,
                processEntries_eq h π es hnb]
              simp only [Bool.true_or, Bool.or_false, if_true]
              have hds := dirJobs_size π es
              have hdirsz : (π, FSTree.dir es).2.size = 1 + sizeEntries es := by
                simp [FSTree.size]
              have hpcons : pendingSize (p :: ps) ≤ n + 1 := hN
              have hnew : pendingSize ((p :: ps).eraseIdx i ++ dirJobs π es) ≤ n := by
                rw [pendingSize_append]
                omega
              have hok' : ∀ it ∈ (p :: ps).eraseIdx i ++ dirJobs π es,
                  noBadFile it.2 = true := by
                intro it hitm
                rcases List.mem_append.1 hitm with hm | hm
                · exact hok it (List.Sublist.mem hm (List.eraseIdx_sublist _ _))
                · exact dirJobs_noBadFile π es hnb it hm
              have hbad' : ∃ it ∈ (p :: ps).eraseIdx i ++ dirJobs π es,
                  errFree it.2 = false := by
                by_cases hcase : errFreeEntries es = true
                · -- the picked item was fine, so the bad item is elsewhere
                  obtain ⟨it₀, hm₀, hb₀⟩ := hbad
                  have hne : it₀ ≠ (π, FSTree.dir es) := by
                    intro hcontra
                    rw [hcontra] at hb₀
                    rw [show errFree (π, FSTree.dir es).2 = errFreeEntries es from rfl,
                      hcase] at hb₀
                    exact Bool.noConfusion hb₀
                  have hm₁ : it₀ ∈ (π, FSTree.dir es) :: (p :: ps).eraseIdx i :=
                    hperm.symm.mem_iff.1 hm₀
                  rcases List.mem_cons.1 hm₁ with hc | hc
                  · exact absurd hc hne
                  · exact ⟨it₀, List.mem_append_left _ hc, hb₀⟩
                · -- the picked item's own subtree fails somewhere
                  obtain ⟨j, hj, hjb⟩ := dirJobs_bad π es hnb (by
                    cases hc2 : errFreeEntries es with
                    | true => exact absurd hc2 hcase
                    | false => rfl)
                  exact ⟨j, List.mem_append_right _ hj, hjb⟩
              rw [ih sched.tail _ hnew hok' hbad']

/-!
## Compiler correctness
-/

/-- `initialSeg a b`: path `a` is an initial segment of path `b`
(component-wise), including `a = b`. -/
def initialSeg : List String → List String → Bool
  | [], _ => true
  | _ :: _, [] => false
  | x :: xs, y :: ys => x = y && initialSeg xs ys

/-- Two relative paths collide for the compiler: one is an initial segment
of the other (equal paths, or one path naming a directory on the other's
way). -/
def comparablePaths (a b : List String) : Bool :=
  initialSeg a b || initialSeg b a

theorem initialSeg_refl (a : List String) : initialSeg a a = true := by
  induction a with
  | nil => rfl
  | cons x xs ih => simp [initialSeg, ih]

theorem comparablePaths_comm (a b : List String) :
    comparablePaths a b = comparablePaths b a := by
  simp [comparablePaths, Bool.or_comm]

/-- All (relative path components, digest) pairs stored in a compiled
children dict, relative to the dict's own level. -/
def flatten : List (String × Node) → List (List String × String)
  | [] => []
  | (k, .file _ d) :: rest => ([k], d) :: flatten rest
  | (k, .dir _ cs) :: rest =>
      (flatten cs).map (fun p => (k :: p.1, p.2)) ++ flatten rest

theorem flatten_append (a b : List (String × Node)) :
    flatten (a ++ b) = flatten a ++ flatten b := by
  induction a with
  | nil => simp [flatten]
  | cons e rest ih =>
      obtain ⟨k, n⟩ := e
      cases n with
      | file p d => simp [flatten, ih]
      | dir p cs => simp [flatten, ih]

mutual

/-- Well-formedness of a compiled node sitting at name `k` under prefix `π`:
its stored `path` is the slash-join of its location, a directory's children
have pairwise-distinct names, and every compiled directory holds at least
one file somewhere below it (the compiler only creates directories on the
way to inserting a file). -/
def wfNode (π : List String) (k : String) : Node → Bool
  | .file p _ => p == joinPath (π ++ [k])
  | .dir p cs =>
      (p == joinPath (π ++ [k])) && !(flatten cs).isEmpty &&
        allDiff (cs.map Prod.fst) && wfEach (π ++ [k]) cs

def wfEach (π : List String) : List (String × Node) → Bool
  | [] => true
  | (k, n) :: rest => wfNode π k n && wfEach π rest

end

/-- Well-formedness of the root children dict. -/
def wfRoot (cs : List (String × Node)) : Bool :=
  allDiff (cs.map Prod.fst) && wfEach [] cs

mutual

/-- A successful `add` stores exactly the new pair: the flattened contents
of the updated dict are the old ones plus `(parts, dgst)`. -/
theorem insertPath_flatten : ∀ (children : List (String × Node))
    (soFar parts : List String) (dgst : String) (cs' : List (String × Node)),
    insertPath children soFar parts dgst = .ok cs' →
    (flatten cs').Perm ((parts, dgst) :: flatten children)
  | children, soFar, [], dgst, cs', hok => by
      simp [insertPath] at hok
  | children, soFar, [name], dgst, cs', hok => by
      simp only [insertPath] at hok
      split at hok
      · simp at hok
      · simp only [Except.ok.injEq] at hok
        subst hok
        rw [flatten_append]
        simpa [flatten] using List.perm_append_comm
  | children, soFar, n₁ :: n₂ :: rest, dgst, cs', hok => by
      simp only [insertPath] at hok
      exact seekDir_flatten children soFar n₁ (n₂ :: rest) dgst cs' hok
  termination_by children soFar parts dgst cs' hok => (parts.length, 1, children.length)

theorem seekDir_flatten : ∀ (children : List (String × Node)) (soFar : List String)
    (dirname : String) (rest : List String) (dgst : String)
    (cs' : List (String × Node)),
    seekDir children soFar dirname rest dgst = .ok cs' →
    (flatten cs').Perm ((dirname :: rest, dgst) :: flatten children)
  | [], soFar, dirname, rest, dgst, cs', hok => by
      simp only [seekDir] at hok
      cases hins : insertPath [] (soFar ++ [dirname]) rest dgst with
      | error e => rw [hins] at hok; simp at hok
      | ok inner =>
          rw [hins] at hok
          simp only [Except.ok.injEq] at hok
          subst hok
          have hIH := insertPath_flatten [] (soFar ++ [dirname]) rest dgst inner hins
          have : flatten [(dirname, Node.dir (joinPath (soFar ++ [dirname])) inner)] =
              (flatten inner).map (fun p => (dirname :: p.1, p.2)) := by
            simp [flatten]
          rw [this]
          have hm := hIH.map (fun p => (dirname :: p.1, p.2))
          simp only [List.map_cons] at hm
          have h0 : flatten ([] : List (String × Node)) = [] := by
            simp only [flatten]
          rw [h0] at hm ⊢
          simp only [List.map_nil] at hm
          exact hm
  | (k, n) :: tail, soFar, dirname, rest, dgst, cs', hok => by
      rw [seekDir.eq_def] at hok
      dsimp only at hok
      split at hok
      · -- k = dirname
        rename_i hk
        cases n with
        | file p d => simp at hok
        | dir p sub =>
            dsimp only at hok
            cases hins : insertPath sub (soFar ++ [dirname]) rest dgst with
            | error e => rw [hins] at hok; simp at hok
            | ok sub' =>
                rw [hins] at hok
                simp only [Except.ok.injEq] at hok
                subst hok
                subst hk
                have hIH := insertPath_flatten sub (soFar ++ [k]) rest dgst sub' hins
                rw [flatten, flatten]
                have hmap := hIH.map (fun p => (k :: p.1, p.2))
                simp only [List.map_cons] at hmap
                have hap := List.Perm.append_right (flatten tail) hmap
                rw [List.cons_append] at hap
                exact hap
      · -- k ≠ dirname
        cases hseek : seekDir tail soFar dirname rest dgst with
        | error e => rw [hseek] at hok; simp at hok
        | ok tail' =>
            rw [hseek] at hok
            simp only [Except.ok.injEq] at hok
            subst hok
            have hIH := seekDir_flatten tail soFar dirname rest dgst tail' hseek
            have h1 : flatten ((k, n) :: tail') = flatten [(k, n)] ++ flatten tail' := by
              rw [← flatten_append]
              rfl
            have h2 : flatten ((k, n) :: tail) = flatten [(k, n)] ++ flatten tail := by
              rw [← flatten_append]
              rfl
            rw [h1, h2]
            have := List.Perm.append_left (flatten [(k, n)]) hIH
            exact this.trans List.perm_middle
  termination_by children soFar dirname rest dgst cs' hok => (rest.length + 1, 0, children.length)

end

theorem contains_eq_true_iff (l : List String) (x : String) :
    l.contains x = true ↔ x ∈ l := by
  simp

theorem allDiff_iff_nodup (l : List String) : allDiff l = true ↔ l.Nodup := by
  induction l with
  | nil => simp [allDiff]
  | cons x xs ih =>
      simp only [allDiff, Bool.and_eq_true, Bool.not_eq_true', List.nodup_cons]
      constructor
      · rintro ⟨hc, ha⟩
        refine ⟨?_, ih.1 ha⟩
        intro hmem
        rw [(contains_eq_true_iff xs x).2 hmem] at hc
        exact Bool.noConfusion hc
      · rintro ⟨hn, hd⟩
        refine ⟨?_, ih.2 hd⟩
        cases hc : xs.contains x with
        | false => rfl
        | true => exact absurd ((contains_eq_true_iff xs x).1 hc) hn

theorem allDiff_snoc (l : List String) (x : String) (hd : allDiff l = true)
    (hx : ¬ x ∈ l) : allDiff (l ++ [x]) = true := by
  rw [allDiff_iff_nodup] at *
  rw [List.nodup_append]
  refine ⟨hd, List.nodup_singleton x, ?_⟩
  intro y hy hyx
  simp only [List.mem_singleton] at hyx
  exact hx (hyx ▸ hy)

theorem wfEach_append (π : List String) (a b : List (String × Node)) :
    wfEach π (a ++ b) = (wfEach π a && wfEach π b) := by
  induction a with
  | nil => simp [wfEach]
  | cons e rest ih =>
      obtain ⟨k, n⟩ := e
      simp [wfEach, ih, Bool.and_assoc]

/-- Every flattened pair's path starts with the key of the child it came
from. -/
theorem flatten_head (cs : List (String × Node)) :
    ∀ q ∈ flatten cs, ∃ x xs, q.1 = x :: xs ∧ x ∈ cs.map Prod.fst := by
  induction cs with
  | nil => simp [flatten]
  | cons e rest ih =>
      obtain ⟨k, n⟩ := e
      intro q hq
      cases n with
      | file p d =>
          rw [flatten] at hq
          rcases List.mem_cons.1 hq with hq | hq
          · subst hq
            exact ⟨k, [], rfl, by simp⟩
          · obtain ⟨x, xs, hx, hm⟩ := ih q hq
            exact ⟨x, xs, hx, by simp [hm]⟩
      | dir p sub =>
          rw [flatten] at hq
          rcases List.mem_append.1 hq with hq | hq
          · obtain ⟨q₀, hq₀, hform⟩ := List.mem_map.1 hq
            refine ⟨k, q₀.1, ?_, by simp⟩
            rw [← hform]
          · obtain ⟨x, xs, hx, hm⟩ := ih q hq
            exact ⟨x, xs, hx, by simp [hm]⟩

/-- In a well-formed dict every key is the head of some stored path
(compiled directories are never childless). -/
theorem keys_flatten (π : List String) (cs : List (String × Node))
    (hwf : wfEach π cs = true) :
    ∀ k ∈ cs.map Prod.fst, ∃ q ∈ flatten cs, ∃ qs, q.1 = k :: qs := by
  induction cs with
  | nil => simp
  | cons e rest ih =>
      obtain ⟨k', n⟩ := e
      rw [wfEach] at hwf
      simp only [Bool.and_eq_true] at hwf
      intro k hk
      simp only [List.map_cons, List.mem_cons] at hk
      rcases hk with hk | hk
      · subst hk
        cases n with
        | file p d => exact ⟨([k], d), by rw [flatten]; simp, [], rfl⟩
        | dir p sub =>
            rw [wfNode] at hwf
            simp only [Bool.and_eq_true] at hwf
            have hne := hwf.1.1.1.2
            match hsub : flatten sub with
            | [] => rw [hsub] at hne; simp at hne
            | q₀ :: _ =>
                refine ⟨(k :: q₀.1, q₀.2), ?_, q₀.1, rfl⟩
                rw [flatten]
                refine List.mem_append_left _ (List.mem_map.2 ⟨q₀, ?_, rfl⟩)
                rw [hsub]
                exact List.mem_cons_self _ _
      · obtain ⟨q, hq, qs, hform⟩ := ih hwf.2 k hk
        refine ⟨q, ?_, qs, hform⟩
        cases n with
        | file p d => rw [flatten]; exact List.mem_cons_of_mem _ hq
        | dir p sub => rw [flatten]; exact List.mem_append_right _ hq

theorem initialSeg_cons_same (x : String) (a b : List String) :
    initialSeg (x :: a) (x :: b) = initialSeg a b := by
  simp [initialSeg]

theorem comparable_cons_same (x : String) (a b : List String) :
    comparablePaths (x :: a) (x :: b) = comparablePaths a b := by
  simp [comparablePaths, initialSeg]

theorem comparable_head {x y : String} {a b : List String}
    (hc : comparablePaths (x :: a) (y :: b) = true) : x = y := by
  simp only [comparablePaths, initialSeg, Bool.or_eq_true, Bool.and_eq_true,
    decide_eq_true_eq] at hc
  rcases hc with ⟨hxy, _⟩ | ⟨hyx, _⟩
  · exact hxy
  · exact hyx.symm

theorem comparable_single (x : String) (a : List String) :
    comparablePaths (x :: a) [x] = true := by
  simp [comparablePaths, initialSeg]

theorem flatten_ok_ne_nil {children : List (String × Node)}
    {soFar parts : List String} {dgst : String} {cs' : List (String × Node)}
    (hok : insertPath children soFar parts dgst = .ok cs') :
    flatten cs' ≠ [] := by
  intro hnil
  have hperm := insertPath_flatten children soFar parts dgst cs' hok
  rw [hnil] at hperm
  exact List.noConfusion hperm.symm.eq_nil

mutual

/-- `add` keeps the compiled dict well-formed, and touches at most the key
named by the first path component. -/
theorem insertPath_wf : ∀ (children : List (String × Node))
    (soFar parts : List String) (dgst : String) (cs' : List (String × Node)),
    insertPath children soFar parts dgst = .ok cs' →
    allDiff (children.map Prod.fst) = true → wfEach soFar children = true →
    allDiff (cs'.map Prod.fst) = true ∧ wfEach soFar cs' = true ∧
      (cs'.map Prod.fst = children.map Prod.fst ∨
        cs'.map Prod.fst = children.map Prod.fst ++ parts.take 1)
  | children, soFar, [], dgst, cs', hok, _, _ => by simp [insertPath] at hok
  | children, soFar, [name], dgst, cs', hok, hd, hwf => by
      simp only [insertPath] at hok
      split at hok
      · simp at hok
      · rename_i hnc
        simp only [Except.ok.injEq] at hok
        subst hok
        have hnm : ¬ name ∈ children.map Prod.fst := by
          intro hmem
          exact hnc ((contains_eq_true_iff _ _).2 hmem)
        refine ⟨?_, ?_, Or.inr ?_⟩
        · rw [List.map_append]
          exact allDiff_snoc _ _ hd hnm
        · rw [wfEach_append]
          simp only [Bool.and_eq_true]
          refine ⟨hwf, ?_⟩
          simp [wfEach, wfNode]
        · simp [List.take]
  | children, soFar, n₁ :: n₂ :: rest, dgst, cs', hok, hd, hwf => by
      simp only [insertPath] at hok
      have := seekDir_wf children soFar n₁ (n₂ :: rest) dgst cs' hok hd hwf
      simpa [List.take] using this
  termination_by children soFar parts dgst cs' hok hd hwf =>
    (parts.length, 1, children.length)

theorem seekDir_wf : ∀ (children : List (String × Node)) (soFar : List String)
    (dirname : String) (rest : List String) (dgst : String)
    (cs' : List (String × Node)),
    seekDir children soFar dirname rest dgst = .ok cs' →
    allDiff (children.map Prod.fst) = true → wfEach soFar children = true →
    allDiff (cs'.map Prod.fst) = true ∧ wfEach soFar cs' = true ∧
      (cs'.map Prod.fst = children.map Prod.fst ∨
        cs'.map Prod.fst = children.map Prod.fst ++ [dirname])
  | [], soFar, dirname, rest, dgst, cs', hok, hd, hwf => by
      simp only [seekDir] at hok
      cases hins : insertPath [] (soFar ++ [dirname]) rest dgst with
      | error e => rw [hins] at hok; simp at hok
      | ok inner =>
          rw [hins] at hok
          simp only [Except.ok.injEq] at hok
          subst hok
          have hIH := insertPath_wf [] (soFar ++ [dirname]) rest dgst inner hins
            (by rfl) (by simp [wfEach])
          have hne := flatten_ok_ne_nil hins
          refine ⟨by simp [allDiff], ?_, Or.inr (by simp)⟩
          simp only [wfEach, wfNode, Bool.and_eq_true]
          refine ⟨⟨⟨⟨by simp, ?_⟩, hIH.1⟩, hIH.2.1⟩, by simp [wfEach]⟩
          simpa using hne
  | (k, n) :: tail, soFar, dirname, rest, dgst, cs', hok, hd, hwf => by
      rw [seekDir.eq_def] at hok
      dsimp only at hok
      rw [wfEach] at hwf
      simp only [Bool.and_eq_true] at hwf
      have hdparts : ¬ k ∈ tail.map Prod.fst ∧ allDiff (tail.map Prod.fst) = true := by
        rw [List.map_cons, allDiff] at hd
        simp only [Bool.and_eq_true, Bool.not_eq_true'] at hd
        refine ⟨?_, hd.2⟩
        intro hmem
        rw [(contains_eq_true_iff _ _).2 hmem] at hd
        exact Bool.noConfusion hd.1
      split at hok
      · -- k = dirname
        rename_i hk
        cases n with
        | file p d => simp at hok
        | dir p sub =>
            dsimp only at hok
            cases hins : insertPath sub (soFar ++ [dirname]) rest dgst with
            | error e => rw [hins] at hok; simp at hok
            | ok sub' =>
                rw [hins] at hok
                simp only [Except.ok.injEq] at hok
                subst hok
                subst hk
                rw [wfNode] at hwf
                simp only [Bool.and_eq_true] at hwf
                obtain ⟨⟨⟨⟨hp, _⟩, hsubd⟩, hsubwf⟩, htail⟩ := hwf
                have hIH := insertPath_wf sub (soFar ++ [k]) rest dgst sub' hins
                  hsubd hsubwf
                have hne := flatten_ok_ne_nil hins
                refine ⟨by simpa using hd, ?_, Or.inl (by simp)⟩
                simp only [wfEach, wfNode, Bool.and_eq_true]
                exact ⟨⟨⟨⟨hp, by simpa using hne⟩, hIH.1⟩, hIH.2.1⟩, htail⟩
      · -- k ≠ dirname
        rename_i hkne
        cases hseek : seekDir tail soFar dirname rest dgst with
        | error e => rw [hseek] at hok; simp at hok
        | ok tail' =>
            rw [hseek] at hok
            simp only [Except.ok.injEq] at hok
            subst hok
            have hIH := seekDir_wf tail soFar dirname rest dgst tail' hseek
              hdparts.2 hwf.2
            have hknotin : ¬ k ∈ tail'.map Prod.fst := by
              rcases hIH.2.2 with hkeys | hkeys
              · rw [hkeys]; exact hdparts.1
              · rw [hkeys]
                intro hmem
                rcases List.mem_append.1 hmem with hm | hm
                · exact hdparts.1 hm
                · simp only [List.mem_singleton] at hm
                  exact hkne hm
            refine ⟨?_, ?_, ?_⟩
            · rw [List.map_cons, allDiff]
              simp only [Bool.and_eq_true, Bool.not_eq_true']
              refine ⟨?_, hIH.1⟩
              cases hc : (tail'.map Prod.fst).contains k with
              | false => rfl
              | true => exact absurd ((contains_eq_true_iff _ _).1 hc) hknotin
            · rw [wfEach]
              simp only [Bool.and_eq_true]
              exact ⟨hwf.1, hIH.2.1⟩
            · rcases hIH.2.2 with hkeys | hkeys
              · exact Or.inl (by simp [hkeys])
              · exact Or.inr (by simp [hkeys])
  termination_by children soFar dirname rest dgst cs' hok hd hwf =>
    (rest.length + 1, 0, children.length)

end

theorem flatten_nil : flatten [] = [] := by simp only [flatten]

theorem flatten_cons_file (k p d : String) (tail : List (String × Node)) :
    flatten ((k, .file p d) :: tail) = ([k], d) :: flatten tail := by
  simp only [flatten]

theorem flatten_cons_dir (k p : String) (cs : List (String × Node))
    (tail : List (String × Node)) :
    flatten ((k, .dir p cs) :: tail) =
      (flatten cs).map (fun q => (k :: q.1, q.2)) ++ flatten tail := by
  simp only [flatten]

mutual

/-- `add` fails fast whenever the new relative path collides with a stored
one: equal paths, or one is a directory on the way of the other. -/
theorem insertPath_err : ∀ (children : List (String × Node))
    (soFar parts : List String) (dgst : String),
    allDiff (children.map Prod.fst) = true → wfEach soFar children = true →
    (∃ q ∈ flatten children, comparablePaths q.1 parts = true) →
    insertPath children soFar parts dgst = .error ()
  | children, soFar, [], dgst, _, _, _ => by simp [insertPath]
  | children, soFar, [name], dgst, hd, hwf, ⟨q, hq, hcomp⟩ => by
      simp only [insertPath]
      obtain ⟨x, xs, hform, hmem⟩ := flatten_head children q hq
      rw [hform] at hcomp
      have hx : x = name := comparable_head hcomp
      rw [if_pos ((contains_eq_true_iff _ _).2 (hx ▸ hmem))]
  | children, soFar, n₁ :: n₂ :: rest, dgst, hd, hwf, hq => by
      simp only [insertPath]
      exact seekDir_err children soFar n₁ (n₂ :: rest) dgst hd hwf hq
  termination_by children soFar parts dgst hd hwf hq =>
    (parts.length, 1, children.length)

theorem seekDir_err : ∀ (children : List (String × Node)) (soFar : List String)
    (dirname : String) (rest : List String) (dgst : String),
    allDiff (children.map Prod.fst) = true → wfEach soFar children = true →
    (∃ q ∈ flatten children, comparablePaths q.1 (dirname :: rest) = true) →
    seekDir children soFar dirname rest dgst = .error ()
  | [], soFar, dirname, rest, dgst, _, _, ⟨q, hq, _⟩ => by
      rw [flatten_nil] at hq
      exact absurd hq (List.not_mem_nil q)
  | (k, n) :: tail, soFar, dirname, rest, dgst, hd, hwf, ⟨q, hq, hcomp⟩ => by
      obtain ⟨x, xs, hform, _⟩ := flatten_head _ q hq
      have hx : x = dirname := by
        rw [hform] at hcomp
        exact comparable_head hcomp
      subst hx
      rw [wfEach] at hwf
      simp only [Bool.and_eq_true] at hwf
      have hdparts : ¬ k ∈ tail.map Prod.fst ∧ allDiff (tail.map Prod.fst) = true := by
        rw [List.map_cons, allDiff] at hd
        simp only [Bool.and_eq_true, Bool.not_eq_true'] at hd
        refine ⟨?_, hd.2⟩
        intro hmem
        rw [(contains_eq_true_iff _ _).2 hmem] at hd
        exact Bool.noConfusion hd.1
      rw [seekDir.eq_def]
      dsimp only
      by_cases hk : k = x
      · subst hk
        rw [if_pos rfl]
        cases n with
        | file p d => rfl
        | dir p sub =>
            dsimp only
            rw [wfNode] at hwf
            simp only [Bool.and_eq_true] at hwf
            obtain ⟨⟨⟨⟨_, _⟩, hsubd⟩, hsubwf⟩, _⟩ := hwf
            -- locate the witness inside `sub`
            rw [flatten_cons_dir] at hq
            rcases List.mem_append.1 hq with hm | hm
            · obtain ⟨q₀, hq₀, hqeq⟩ := List.mem_map.1 hm
              have hq₀comp : comparablePaths q₀.1 rest = true := by
                have hqk : q.1 = k :: q₀.1 := by rw [← hqeq]
                rw [hqk] at hcomp
                rwa [comparable_cons_same] at hcomp
              rw [insertPath_err sub (soFar ++ [k]) rest dgst hsubd hsubwf
                ⟨q₀, hq₀, hq₀comp⟩]
            · exfalso
              obtain ⟨x', xs', hform', hmem'⟩ := flatten_head tail q hm
              rw [hform'] at hform
              simp only [List.cons.injEq] at hform
              exact hdparts.1 (hform.1 ▸ hmem')
      · rw [if_neg hk]
        have hqtail : q ∈ flatten tail := by
          have hq' : q ∈ flatten [(k, n)] ++ flatten tail := by
            rw [← flatten_append]
            exact hq
          rcases List.mem_append.1 hq' with hm | hm
          · exfalso
            obtain ⟨x', xs', hform', hmem'⟩ := flatten_head [(k, n)] q hm
            rw [hform'] at hform
            simp only [List.cons.injEq] at hform
            simp only [List.map_cons, List.map_nil, List.mem_singleton] at hmem'
            exact hk (hmem' ▸ hform.1)
          · exact hm
        rw [seekDir_err tail soFar x rest dgst hdparts.2 hwf.2
          ⟨q, hqtail, hform ▸ hcomp⟩]
  termination_by children soFar dirname rest dgst hd hwf hq =>
    (rest.length + 1, 0, children.length)

end

mutual

/-- `add` succeeds whenever the new relative path collides with no stored
path. -/
theorem insertPath_ok : ∀ (children : List (String × Node))
    (soFar parts : List String) (dgst : String),
    parts ≠ [] →
    allDiff (children.map Prod.fst) = true → wfEach soFar children = true →
    (∀ q ∈ flatten children, comparablePaths q.1 parts = false) →
    ∃ cs', insertPath children soFar parts dgst = .ok cs'
  | children, soFar, [], dgst, hne, _, _, _ => absurd rfl hne
  | children, soFar, [name], dgst, _, hd, hwf, hinc => by
      simp only [insertPath]
      have hnm : ¬ name ∈ children.map Prod.fst := by
        intro hmem
        obtain ⟨q, hq, qs, hform⟩ := keys_flatten soFar children hwf name hmem
        have := hinc q hq
        rw [hform, comparable_single] at this
        exact Bool.noConfusion this
      rw [if_neg (fun hc => hnm ((contains_eq_true_iff _ _).1 hc))]
      exact ⟨_, rfl⟩
  | children, soFar, n₁ :: n₂ :: rest, dgst, _, hd, hwf, hinc => by
      simp only [insertPath]
      exact seekDir_ok children soFar n₁ (n₂ :: rest) dgst (by simp) hd hwf hinc
  termination_by children soFar parts dgst hne hd hwf hinc =>
    (parts.length, 1, children.length)

theorem seekDir_ok : ∀ (children : List (String × Node)) (soFar : List String)
    (dirname : String) (rest : List String) (dgst : String),
    rest ≠ [] →
    allDiff (children.map Prod.fst) = true → wfEach soFar children = true →
    (∀ q ∈ flatten children, comparablePaths q.1 (dirname :: rest) = false) →
    ∃ cs', seekDir children soFar dirname rest dgst = .ok cs'
  | [], soFar, dirname, rest, dgst, hne, _, _, _ => by
      simp only [seekDir]
      obtain ⟨inner, hinner⟩ := insertPath_ok [] (soFar ++ [dirname]) rest dgst
        hne (by rfl) (by simp [wfEach]) (by rw [flatten_nil]; simp)
      rw [hinner]
      exact ⟨_, rfl⟩
  | (k, n) :: tail, soFar, dirname, rest, dgst, hne, hd, hwf, hinc => by
      rw [seekDir.eq_def]
      dsimp only
      rw [wfEach] at hwf
      simp only [Bool.and_eq_true] at hwf
      have hdparts : ¬ k ∈ tail.map Prod.fst ∧ allDiff (tail.map Prod.fst) = true := by
        rw [List.map_cons, allDiff] at hd
        simp only [Bool.and_eq_true, Bool.not_eq_true'] at hd
        refine ⟨?_, hd.2⟩
        intro hmem
        rw [(contains_eq_true_iff _ _).2 hmem] at hd
        exact Bool.noConfusion hd.1
      by_cases hk : k = dirname
      · subst hk
        rw [if_pos rfl]
        cases n with
        | file p d =>
            exfalso
            have hmem : ([k], d) ∈ flatten ((k, Node.file p d) :: tail) := by
              rw [flatten_cons_file]
              exact List.mem_cons_self _ _
            have := hinc _ hmem
            rw [show (([k], d) : List String × String).1 = [k] from rfl] at this
            have hcomp : comparablePaths [k] (k :: rest) = true := by
              simp [comparablePaths, initialSeg]
            rw [hcomp] at this
            exact Bool.noConfusion this
        | dir p sub =>
            dsimp only
            rw [wfNode] at hwf
            simp only [Bool.and_eq_true] at hwf
            obtain ⟨⟨⟨⟨_, _⟩, hsubd⟩, hsubwf⟩, _⟩ := hwf
            have hsubinc : ∀ q ∈ flatten sub, comparablePaths q.1 rest = false := by
              intro q₀ hq₀
              have hmem : (k :: q₀.1, q₀.2) ∈ flatten ((k, Node.dir p sub) :: tail) := by
                rw [flatten_cons_dir]
                exact List.mem_append_left _ (List.mem_map.2 ⟨q₀, hq₀, rfl⟩)
              have := hinc _ hmem
              rwa [show ((k :: q₀.1, q₀.2) : List String × String).1 = k :: q₀.1 from rfl,
                comparable_cons_same] at this
            obtain ⟨sub', hsub'⟩ := insertPath_ok sub (soFar ++ [k]) rest dgst
              hne hsubd hsubwf hsubinc
            rw [hsub']
            exact ⟨_, rfl⟩
      · rw [if_neg hk]
        have htailinc : ∀ q ∈ flatten tail, comparablePaths q.1 (dirname :: rest) = false := by
          intro q hq
          refine hinc q ?_
          have : flatten ((k, n) :: tail) = flatten [(k, n)] ++ flatten tail := by
            rw [← flatten_append]
            rfl
          rw [this]
          exact List.mem_append_right _ hq
        obtain ⟨tail', htail'⟩ := seekDir_ok tail soFar dirname rest dgst
          hne hdparts.2 hwf.2 htailinc
        rw [htail']
        exact ⟨_, rfl⟩
  termination_by children soFar dirname rest dgst hne hd hwf hinc =>
    (rest.length + 1, 0, children.length)

end

mutual

def nodeSize : Node → Nat
  | .file _ _ => 1
  | .dir _ cs => 1 + nodesSize cs

def nodesSize : List (String × Node) → Nat
  | [] => 0
  | (_, n) :: rest => nodeSize n + nodesSize rest

end

theorem nodeSize_pos (n : Node) : 0 < nodeSize n := by
  cases n <;> simp [nodeSize]

theorem flatten_paths_ne_nil (cs : List (String × Node)) :
    ∀ q ∈ flatten cs, q.1 ≠ [] := by
  intro q hq
  obtain ⟨x, xs, hform, _⟩ := flatten_head cs q hq
  rw [hform]
  simp

theorem levelFiles_cons_single (π : List String) (k d : String)
    (X : List (List String × String)) :
    levelFiles π (([k], d) :: X) = (joinPath (π ++ [k]), d) :: levelFiles π X := by
  simp [levelFiles, List.filterMap_cons]

theorem levelFiles_cons_long (π : List String) (k r : String) (rs : List String)
    (d : String) (X : List (List String × String)) :
    levelFiles π ((k :: r :: rs, d) :: X) = levelFiles π X := by
  simp [levelFiles, List.filterMap_cons]

theorem levelFiles_append (π : List String) (X Y : List (List String × String)) :
    levelFiles π (X ++ Y) = levelFiles π X ++ levelFiles π Y := by
  simp [levelFiles, List.filterMap_append]

theorem levelFiles_mapped (π : List String) (k : String)
    (l : List (List String × String)) (hne : ∀ q ∈ l, q.1 ≠ []) :
    levelFiles π (l.map (fun q => (k :: q.1, q.2))) = [] := by
  induction l with
  | nil => simp [levelFiles]
  | cons q rest ih =>
      have hq := hne q (List.mem_cons_self _ _)
      match hq1 : q.1 with
      | [] => exact absurd hq1 hq
      | r :: rs =>
          simp only [List.map_cons, hq1]
          rw [levelFiles_cons_long]
          exact ih (fun q' hq' => hne q' (List.mem_cons_of_mem _ hq'))

/-- The `files` mapping that `get_digest` builds is exactly the
canonically-recovered file list at this level (in dict order). -/
theorem fileEntries_flatten (π : List String) (cs : List (String × Node))
    (hwf : wfEach π cs = true) :
    fileEntries cs = levelFiles π (flatten cs) := by
  induction cs with
  | nil => rw [flatten_nil]; simp [fileEntries, levelFiles]
  | cons e tail ih =>
      obtain ⟨k, n⟩ := e
      rw [wfEach] at hwf
      simp only [Bool.and_eq_true] at hwf
      cases n with
      | file p d =>
          rw [flatten_cons_file, levelFiles_cons_single, fileEntries]
          rw [wfNode] at hwf
          have hp : p = joinPath (π ++ [k]) := by
            have := hwf.1
            simpa [beq_iff_eq] using this
          rw [hp, ih hwf.2]
      | dir p sub =>
          rw [flatten_cons_dir, levelFiles_append,
            levelFiles_mapped π k _ (flatten_paths_ne_nil sub), List.nil_append]
          rw [fileEntries]
          exact ih hwf.2

/-- The keys of the `Directory`-valued children, in dict order. -/
def dirKeys (cs : List (String × Node)) : List String :=
  cs.filterMap (fun e =>
    match e.2 with
    | .dir _ _ => some e.1
    | _ => none)

theorem dirKeys_sublist (cs : List (String × Node)) :
    (dirKeys cs).Sublist (cs.map Prod.fst) := by
  induction cs with
  | nil => simp [dirKeys]
  | cons e tail ih =>
      obtain ⟨k, n⟩ := e
      cases n with
      | file p d =>
          simp only [dirKeys, List.filterMap_cons, List.map_cons]
          exact List.Sublist.cons _ ih
      | dir p sub =>
          simp only [dirKeys, List.filterMap_cons, List.map_cons]
          exact List.Sublist.cons₂ _ ih

def headsAux (pairs : List (List String × String)) : List String :=
  pairs.filterMap (fun p =>
    match p.1 with
    | n :: _ :: _ => some n
    | _ => none)

theorem subdirNames_eq_headsAux (pairs : List (List String × String)) :
    subdirNames pairs = dedupSort (headsAux pairs) := rfl

theorem headsAux_cons_single (k d : String) (X : List (List String × String)) :
    headsAux (([k], d) :: X) = headsAux X := by
  simp [headsAux, List.filterMap_cons]

theorem headsAux_cons_long (k r : String) (rs : List String) (d : String)
    (X : List (List String × String)) :
    headsAux ((k :: r :: rs, d) :: X) = k :: headsAux X := by
  simp [headsAux, List.filterMap_cons]

theorem headsAux_append (X Y : List (List String × String)) :
    headsAux (X ++ Y) = headsAux X ++ headsAux Y := by
  simp [headsAux, List.filterMap_append]

theorem headsAux_mapped (k : String) (l : List (List String × String))
    (hne : ∀ q ∈ l, q.1 ≠ []) :
    ∀ x ∈ headsAux (l.map (fun q => (k :: q.1, q.2))), x = k := by
  induction l with
  | nil => simp [headsAux]
  | cons q rest ih =>
      have hq := hne q (List.mem_cons_self _ _)
      match hq1 : q.1 with
      | [] => exact absurd hq1 hq
      | r :: rs =>
          simp only [List.map_cons, hq1]
          rw [headsAux_cons_long]
          intro x hx
          rcases List.mem_cons.1 hx with hx | hx
          · exact hx
          · exact ih (fun q' hq' => hne q' (List.mem_cons_of_mem _ hq')) x hx

theorem headsAux_mapped_mem (k : String) (l : List (List String × String))
    (q : List String × String) (hq : q ∈ l) (hne : q.1 ≠ []) :
    k ∈ headsAux (l.map (fun q => (k :: q.1, q.2))) := by
  induction l with
  | nil => exact absurd hq (List.not_mem_nil q)
  | cons q' rest ih =>
      rcases List.mem_cons.1 hq with hq' | hq'
      · subst hq'
        match hq1 : q.1 with
        | [] => exact absurd hq1 hne
        | r :: rs =>
            simp only [List.map_cons, hq1]
            rw [headsAux_cons_long]
            exact List.mem_cons_self _ _
      · match hq1 : q'.1 with
        | [] =>
            simp only [List.map_cons, hq1]
            rw [show ((k :: ([] : List String), q'.2)) = ([k], q'.2) from rfl,
              headsAux_cons_single]
            exact ih hq'
        | r :: rs =>
            simp only [List.map_cons, hq1]
            rw [headsAux_cons_long]
            exact List.mem_cons_of_mem _ (ih hq')

/-- Under well-formedness, the immediate subdirectory names recoverable from
the flattened pairs are exactly the keys of the `Directory` children. -/
theorem headsAux_flatten_mem (π : List String) (cs : List (String × Node))
    (hwf : wfEach π cs = true) (x : String) :
    x ∈ headsAux (flatten cs) ↔ x ∈ dirKeys cs := by
  induction cs with
  | nil => rw [flatten_nil]; simp [headsAux, dirKeys]
  | cons e tail ih =>
      obtain ⟨k, n⟩ := e
      rw [wfEach] at hwf
      simp only [Bool.and_eq_true] at hwf
      cases n with
      | file p d =>
          rw [flatten_cons_file, headsAux_cons_single]
          rw [show dirKeys ((k, Node.file p d) :: tail) = dirKeys tail by
            simp [dirKeys, List.filterMap_cons]]
          exact ih hwf.2
      | dir p sub =>
          rw [flatten_cons_dir, headsAux_append]
          rw [show dirKeys ((k, Node.dir p sub) :: tail) = k :: dirKeys tail by
            simp [dirKeys, List.filterMap_cons]]
          rw [wfNode] at hwf
          simp only [Bool.and_eq_true] at hwf
          have hne := hwf.1.1.1.2
          constructor
          · intro hx
            rcases List.mem_append.1 hx with hm | hm
            · exact List.mem_cons.2 (Or.inl
                (headsAux_mapped k _ (flatten_paths_ne_nil sub) x hm))
            · exact List.mem_cons.2 (Or.inr ((ih hwf.2).1 hm))
          · intro hx
            rcases List.mem_cons.1 hx with hx | hx
            · subst hx
              refine List.mem_append_left _ ?_
              match hsub : flatten sub with
              | [] => rw [hsub] at hne; simp at hne
              | q₀ :: X =>
                  exact headsAux_mapped_mem x (q₀ :: X) q₀ (List.mem_cons_self _ _)
                    (flatten_paths_ne_nil sub q₀ (by rw [hsub]; exact List.mem_cons_self _ _))
            · exact List.mem_append_right _ ((ih hwf.2).2 hx)

theorem subdirNames_flatten (π : List String) (cs : List (String × Node))
    (hd : allDiff (cs.map Prod.fst) = true) (hwf : wfEach π cs = true) :
    subdirNames (flatten cs) = (dirKeys cs).mergeSort strLe := by
  rw [subdirNames_eq_headsAux,
    dedupSort_eq_of_mem_iff (fun x => headsAux_flatten_mem π cs hwf x)]
  exact dedupSort_of_nodup
    ((dirKeys_sublist cs).nodup ((allDiff_iff_nodup _).1 hd))

theorem stripDir_append (k : String) (X Y : List (List String × String)) :
    stripDir k (X ++ Y) = stripDir k X ++ stripDir k Y := by
  simp [stripDir, List.filterMap_append]

theorem stripDir_mapped_same (k : String) (l : List (List String × String))
    (hne : ∀ q ∈ l, q.1 ≠ []) :
    stripDir k (l.map (fun q => (k :: q.1, q.2))) = l := by
  induction l with
  | nil => simp [stripDir]
  | cons q rest ih =>
      have hq := hne q (List.mem_cons_self _ _)
      match hq1 : q.1 with
      | [] => exact absurd hq1 hq
      | r :: rs =>
          simp only [List.map_cons, hq1]
          rw [stripDir_cons_hit]
          rw [ih (fun q' hq' => hne q' (List.mem_cons_of_mem _ hq'))]
          have : q = (r :: rs, q.2) := by
            rw [← hq1]
          rw [← this]
  termination_by l.length

theorem stripDir_mapped_other (x k : String) (hk : x ≠ k)
    (l : List (List String × String)) (hne : ∀ q ∈ l, q.1 ≠ []) :
    stripDir x (l.map (fun q => (k :: q.1, q.2))) = [] := by
  induction l with
  | nil => simp [stripDir]
  | cons q rest ih =>
      have hq := hne q (List.mem_cons_self _ _)
      match hq1 : q.1 with
      | [] => exact absurd hq1 hq
      | r :: rs =>
          simp only [List.map_cons, hq1]
          rw [stripDir_cons_miss x k r rs q.2 _ (fun hc => hk hc.symm)]
          exact ih (fun q' hq' => hne q' (List.mem_cons_of_mem _ hq'))

/-- No stored path starts with `x`, so stripping `x` leaves nothing. -/
theorem stripDir_flatten_absent (x : String) (cs : List (String × Node))
    (hx : ¬ x ∈ cs.map Prod.fst) :
    stripDir x (flatten cs) = [] := by
  induction cs with
  | nil => rw [flatten_nil]; simp [stripDir]
  | cons e tail ih =>
      obtain ⟨k, n⟩ := e
      have hxk : x ≠ k := by
        intro hc
        exact hx (by simp [hc])
      have hxtail : ¬ x ∈ tail.map Prod.fst := by
        intro hc
        exact hx (by simp [hc])
      cases n with
      | file p d =>
          rw [flatten_cons_file, stripDir_cons_single]
          exact ih hxtail
      | dir p sub =>
          rw [flatten_cons_dir, stripDir_append,
            stripDir_mapped_other x k hxk _ (flatten_paths_ne_nil sub),
            List.nil_append]
          exact ih hxtail

theorem allDiff_cons_split {k : String} {ks : List String}
    (hd : allDiff (k :: ks) = true) : ¬ k ∈ ks ∧ allDiff ks = true := by
  rw [allDiff] at hd
  simp only [Bool.and_eq_true, Bool.not_eq_true'] at hd
  refine ⟨?_, hd.2⟩
  intro hmem
  rw [(contains_eq_true_iff _ _).2 hmem] at hd
  exact Bool.noConfusion hd.1

/-- `Directory.get_digest` computes the canonical digest of the flattened
contents: the `files`/`dirs` dicts it passes to the combination function are
permutations of the canonically sorted ones, level by level. -/
theorem digest_canon_aux (c : Combine) (hc : PermInv c) :
    ∀ (N : Nat) (π : List String) (cs : List (String × Node)),
      nodesSize cs < N →
      allDiff (cs.map Prod.fst) = true → wfEach π cs = true →
      dirEntries c cs = (dirKeys cs).map (fun k =>
          (joinPath (π ++ [k]), canonLevel c (π ++ [k]) (stripDir k (flatten cs)))) ∧
      c (fileEntries cs) (dirEntries c cs) = canonLevel c π (flatten cs) := by
  intro N
  induction N with
  | zero => intro π cs h _ _; omega
  | succ n ih =>
      intro π cs hsz hd hwf
      have hdirs : dirEntries c cs = (dirKeys cs).map (fun k =>
          (joinPath (π ++ [k]), canonLevel c (π ++ [k]) (stripDir k (flatten cs)))) := by
        cases cs with
        | nil => simp [dirEntries, dirKeys]
        | cons e tail =>
            obtain ⟨k, n⟩ := e
            rw [List.map_cons] at hd
            obtain ⟨hknotin, hdt⟩ := allDiff_cons_split hd
            rw [wfEach] at hwf
            simp only [Bool.and_eq_true] at hwf
            cases n with
            | file p d =>
                rw [show dirEntries c ((k, Node.file p d) :: tail) = dirEntries c tail
                  from by simp only [dirEntries]]
                rw [show dirKeys ((k, Node.file p d) :: tail) = dirKeys tail
                  from by simp [dirKeys, List.filterMap_cons]]
                rw [flatten_cons_file]
                simp only [stripDir_cons_single]
                have hszt : nodesSize tail < n := by
                  have h1 : nodesSize ((k, Node.file p d) :: tail) =
                      1 + nodesSize tail := by simp [nodesSize, nodeSize]
                  omega
                exact (ih π tail hszt hdt hwf.2).1
            | dir p sub =>
                rw [show dirEntries c ((k, Node.dir p sub) :: tail) =
                    (p, nodeDigest c (Node.dir p sub)) :: dirEntries c tail
                  from by simp only [dirEntries]]
                rw [show dirKeys ((k, Node.dir p sub) :: tail) = k :: dirKeys tail
                  from by simp [dirKeys, List.filterMap_cons]]
                rw [List.map_cons]
                rw [wfNode] at hwf
                simp only [Bool.and_eq_true] at hwf
                obtain ⟨⟨⟨⟨hpbeq, _⟩, hsubd⟩, hsubwf⟩, htailwf⟩ := hwf
                have hp : p = joinPath (π ++ [k]) := by simpa [beq_iff_eq] using hpbeq
                have hsizes : nodesSize ((k, Node.dir p sub) :: tail) =
                    1 + nodesSize sub + nodesSize tail := by
                  simp [nodesSize, nodeSize]
                congr 1
                · -- the head entry
                  rw [flatten_cons_dir, stripDir_append,
                    stripDir_mapped_same k _ (flatten_paths_ne_nil sub),
                    stripDir_flatten_absent k tail hknotin, List.append_nil]
                  have hsub : nodesSize sub < n := by omega
                  have hsubdig := (ih (π ++ [k]) sub hsub hsubd hsubwf).2
                  rw [show nodeDigest c (Node.dir p sub) =
                      c (fileEntries sub) (dirEntries c sub) from by
                    simp only [nodeDigest]]
                  rw [hsubdig, hp]
                · -- the tail entries
                  have hszt : nodesSize tail < n := by omega
                  rw [(ih π tail hszt hdt htailwf).1]
                  refine List.map_congr_left ?_
                  intro x hx
                  have hxkeys : x ∈ tail.map Prod.fst :=
                    List.Sublist.mem hx (dirKeys_sublist tail)
                  have hxk : x ≠ k := by
                    intro hc'
                    exact hknotin (hc' ▸ hxkeys)
                  rw [flatten_cons_dir, stripDir_append,
                    stripDir_mapped_other x k hxk _ (flatten_paths_ne_nil sub),
                    List.nil_append]
      refine ⟨hdirs, ?_⟩
      rw [canonLevel_eq, subdirNames_flatten π cs hd hwf,
        ← fileEntries_flatten π cs hwf]
      refine hc _ _ _ _ (sortPairs_perm _).symm ?_
      rw [hdirs]
      exact ((List.mergeSort_perm _ _).map _).symm

theorem compileChildren_flatten :
    ∀ (l : List (List String × String)) (cs cs' : List (String × Node)),
      compileChildren l cs = .ok cs' → (flatten cs').Perm (l ++ flatten cs) := by
  intro l
  induction l with
  | nil =>
      intro cs cs' hok
      simp only [compileChildren, Except.ok.injEq] at hok
      subst hok
      simp
  | cons p rest ih =>
      intro cs cs' hok
      obtain ⟨parts, dgst⟩ := p
      simp only [compileChildren] at hok
      cases hins : insertPath cs [] parts dgst with
      | error e => rw [hins] at hok; simp at hok
      | ok cs₁ =>
          rw [hins] at hok
          have h₁ := insertPath_flatten cs [] parts dgst cs₁ hins
          have h₂ := ih cs₁ cs' hok
          refine (h₂.trans ?_)
          have := List.Perm.append_left rest h₁
          exact this.trans List.perm_middle

theorem compileChildren_wf :
    ∀ (l : List (List String × String)) (cs cs' : List (String × Node)),
      compileChildren l cs = .ok cs' →
      allDiff (cs.map Prod.fst) = true → wfEach [] cs = true →
      allDiff (cs'.map Prod.fst) = true ∧ wfEach [] cs' = true := by
  intro l
  induction l with
  | nil =>
      intro cs cs' hok hd hwf
      simp only [compileChildren, Except.ok.injEq] at hok
      subst hok
      exact ⟨hd, hwf⟩
  | cons p rest ih =>
      intro cs cs' hok hd hwf
      obtain ⟨parts, dgst⟩ := p
      simp only [compileChildren] at hok
      cases hins : insertPath cs [] parts dgst with
      | error e => rw [hins] at hok; simp at hok
      | ok cs₁ =>
          rw [hins] at hok
          have h₁ := insertPath_wf cs [] parts dgst cs₁ hins hd hwf
          exact ih cs₁ cs' hok h₁.1 h₁.2.1

theorem compileChildren_ok :
    ∀ (l : List (List String × String)) (cs : List (String × Node)),
      allDiff (cs.map Prod.fst) = true → wfEach [] cs = true →
      (∀ p ∈ l, p.1 ≠ []) →
      (∀ p ∈ l, ∀ q ∈ flatten cs, comparablePaths q.1 p.1 = false) →
      List.Pairwise (fun a b => comparablePaths a.1 b.1 = false) l →
      ∃ cs', compileChildren l cs = .ok cs' := by
  intro l
  induction l with
  | nil =>
      intro cs _ _ _ _ _
      exact ⟨cs, rfl⟩
  | cons p rest ih =>
      intro cs hd hwf hne hcross hpw
      obtain ⟨parts, dgst⟩ := p
      obtain ⟨cs₁, hins⟩ := insertPath_ok cs [] parts dgst
        (hne _ (List.mem_cons_self _ _)) hd hwf
        (fun q hq => hcross _ (List.mem_cons_self _ _) q hq)
      have hwf₁ := insertPath_wf cs [] parts dgst cs₁ hins hd hwf
      have hflat₁ := insertPath_flatten cs [] parts dgst cs₁ hins
      rw [List.pairwise_cons] at hpw
      obtain ⟨cs', hrest⟩ := ih cs₁ hwf₁.1 hwf₁.2.1
        (fun q hq => hne q (List.mem_cons_of_mem _ hq))
        (by
          intro p' hp' q hq
          have hqmem := hflat₁.mem_iff.1 hq
          rcases List.mem_cons.1 hqmem with hq' | hq'
          · rw [hq']
            exact hpw.1 p' hp'
          · exact hcross p' (List.mem_cons_of_mem _ hp') q hq')
        hpw.2
      refine ⟨cs', ?_⟩
      simp only [compileChildren]
      rw [hins]
      exact hrest

theorem compileChildren_append (l₁ l₂ : List (List String × String))
    (cs : List (String × Node)) :
    compileChildren (l₁ ++ l₂) cs =
      match compileChildren l₁ cs with
      | Except.error e => Except.error e
      | Except.ok cs₁ => compileChildren l₂ cs₁ := by
  induction l₁ generalizing cs with
  | nil => simp [compileChildren]
  | cons p rest ih =>
      obtain ⟨parts, dgst⟩ := p
      simp only [List.cons_append, compileChildren]
      cases hins : insertPath cs [] parts dgst with
      | error e => rfl
      | ok cs₁ => exact ih cs₁

theorem allFilesEntries_head (h : Hash) (es : List (String × FSTree)) :
    ∀ q ∈ allFilesEntries h es, ∃ x xs, q.1 = x :: xs ∧ x ∈ es.map Prod.fst := by
  induction es with
  | nil => simp [allFilesEntries]
  | cons e rest ih =>
      obtain ⟨n, t⟩ := e
      intro q hq
      cases t with
      | file b =>
          rw [allFilesEntries] at hq
          rcases List.mem_cons.1 hq with hq | hq
          · subst hq
            exact ⟨n, [], rfl, by simp⟩
          · obtain ⟨x, xs, hf, hm⟩ := ih q hq
            exact ⟨x, xs, hf, by simp [hm]⟩
      | dir es' =>
          rw [allFilesEntries] at hq
          rcases List.mem_append.1 hq with hq | hq
          · obtain ⟨q₀, _, hf⟩ := List.mem_map.1 hq
            exact ⟨n, q₀.1, by rw [← hf], by simp⟩
          · obtain ⟨x, xs, hf, hm⟩ := ih q hq
            exact ⟨x, xs, hf, by simp [hm]⟩
      | badFile =>
          rw [allFilesEntries] at hq
          obtain ⟨x, xs, hf, hm⟩ := ih q hq
          exact ⟨x, xs, hf, by simp [hm]⟩
      | badDir =>
          rw [allFilesEntries] at hq
          obtain ⟨x, xs, hf, hm⟩ := ih q hq
          exact ⟨x, xs, hf, by simp [hm]⟩

theorem allFilesEntries_ne_nil_paths (h : Hash) (es : List (String × FSTree)) :
    ∀ q ∈ allFilesEntries h es, q.1 ≠ [] := by
  intro q hq
  obtain ⟨x, xs, hf, _⟩ := allFilesEntries_head h es q hq
  rw [hf]
  simp

theorem comparable_of_ne_heads {x y : String} {a b : List String} (hxy : x ≠ y) :
    comparablePaths (x :: a) (y :: b) = false := by
  cases hcomp : comparablePaths (x :: a) (y :: b) with
  | false => rfl
  | true => exact absurd (comparable_head hcomp) hxy

/-- On a real tree (distinct names in each directory) the specification
stream has pairwise-incollidable paths: no duplicates, no file/directory
conflicts. -/
theorem allFilesEntries_pairwise (h : Hash) :
    ∀ (es : List (String × FSTree)),
      allDiff (es.map Prod.fst) = true → fsWFEntries es = true →
      List.Pairwise (fun a b => comparablePaths a.1 b.1 = false)
        (allFilesEntries h es)
  | [] => by
      intro _ _
      simp [allFilesEntries]
  | (n, t) :: rest => by
      intro hd hwf
      have ih := allFilesEntries_pairwise h rest
      rw [List.map_cons] at hd
      obtain ⟨hknotin, hdt⟩ := allDiff_cons_split hd
      rw [fsWFEntries] at hwf
      simp only [Bool.and_eq_true] at hwf
      have hcross : ∀ q ∈ allFilesEntries h rest, ∀ (xs : List String),
          comparablePaths (n :: xs) q.1 = false := by
        intro q hq xs
        obtain ⟨x, xs', hf, hm⟩ := allFilesEntries_head h rest q hq
        rw [hf]
        exact comparable_of_ne_heads (fun hc => hknotin (hc ▸ hm))
      cases t with
      | file b =>
          rw [allFilesEntries]
          rw [List.pairwise_cons]
          exact ⟨fun q hq => hcross q hq [], ih hdt hwf.2⟩
      | dir es' =>
          rw [allFilesEntries]
          rw [List.pairwise_append]
          refine ⟨?_, ih hdt hwf.2, ?_⟩
          · rw [List.pairwise_map]
            rw [fsWF] at hwf
            simp only [Bool.and_eq_true] at hwf
            have hin := allFilesEntries_pairwise h es' hwf.1.1 hwf.1.2
            refine hin.imp ?_
            intro a b hab
            simpa [comparable_cons_same] using hab
          · intro a ha b hb
            obtain ⟨q₀, _, hf⟩ := List.mem_map.1 ha
            rw [← hf]
            exact hcross b hb q₀.1
      | badFile =>
          rw [allFilesEntries]
          exact ih hdt hwf.2
      | badDir =>
          rw [allFilesEntries]
          exact ih hdt hwf.2

theorem prefixed_nil (l : List (List String × String)) : prefixed [] l = l := by
  simp [prefixed]

/-- Any successfully compiled stream digests to the canonical digest of the
stream's multiset of pairs. -/
theorem nodeDigest_canon (c : Combine) (hc : PermInv c)
    (l : List (List String × String)) (root : Node)
    (hok : compileStream l = .ok root) :
    nodeDigest c root = canonLevel c [] l := by
  simp only [compileStream] at hok
  cases hcc : compileChildren l [] with
  | error e => rw [hcc] at hok; simp at hok
  | ok cs' =>
      rw [hcc] at hok
      simp only [Except.ok.injEq] at hok
      subst hok
      have hwf := compileChildren_wf l [] cs' hcc (by rfl) (by simp only [wfEach])
      have hflat := compileChildren_flatten l [] cs' hcc
      rw [flatten_nil, List.append_nil] at hflat
      have hdg := (digest_canon_aux c hc (nodesSize cs' + 1) [] cs'
        (by omega) hwf.1 hwf.2).2
      rw [show nodeDigest c (Node.dir "" cs') =
        c (fileEntries cs') (dirEntries c cs') from by simp only [nodeDigest]]
      rw [hdg]
      exact canonLevel_congr c [] hflat

theorem comparable_symmetric :
    Symmetric (fun a b : List String × String => comparablePaths a.1 b.1 = false) := by
  intro a b hab
  rw [comparablePaths_comm]
  exact hab

theorem compileStream_ok (l : List (List String × String))
    (hne : ∀ p ∈ l, p.1 ≠ [])
    (hpw : List.Pairwise (fun a b => comparablePaths a.1 b.1 = false) l) :
    ∃ root, compileStream l = .ok root := by
  obtain ⟨cs', hcc⟩ := compileChildren_ok l [] (by rfl) (by simp only [wfEach]) hne
    (by
      intro p _ q hq
      rw [flatten_nil] at hq
      exact absurd hq (List.not_mem_nil q))
    hpw
  refine ⟨.dir "" cs', ?_⟩
  simp only [compileStream]
  rw [hcc]

/-- `IterativeChecksummer.checksum` applied to any emission order of the
specification stream of an error-free well-formed tree: the result is the
canonical digest. -/
theorem checksumFrom_spec (c : Combine) (hc : PermInv c) (h : Hash)
    (es : List (String × FSTree)) (hd : allDiff (es.map Prod.fst) = true)
    (hwfe : fsWFEntries es = true) (l : List (List String × String))
    (hperm : l.Perm (allFilesEntries h es)) :
    checksumFrom c (.ok l) = .ok (canonLevel c [] (allFilesEntries h es)) := by
  have hpwcanon := allFilesEntries_pairwise h es hd hwfe
  have hpw : List.Pairwise (fun a b => comparablePaths a.1 b.1 = false) l :=
    (List.Perm.pairwise_iff (fun hab => comparable_symmetric hab) hperm).2 hpwcanon
  have hne : ∀ p ∈ l, p.1 ≠ [] := fun p hp =>
    allFilesEntries_ne_nil_paths h es p (hperm.mem_iff.1 hp)
  obtain ⟨root, hok⟩ := compileStream_ok l hne hpw
  simp only [checksumFrom]
  rw [hok]
  dsimp only
  rw [nodeDigest_canon c hc l root hok, canonLevel_congr c [] hperm]

theorem walkAll_dir_spec (h : Hash) (catchErr : Bool) (sched : List Nat)
    (es : List (String × FSTree)) (hef : errFreeEntries es = true) :
    ∃ l, walkAll catchErr h sched [([], FSTree.dir es)] = .ok l ∧
      l.Perm (allFilesEntries h es) := by
  obtain ⟨l, hok, hperm⟩ := walkAll_spec h (pendingSize [([], FSTree.dir es)] + 1)
    catchErr sched [([], FSTree.dir es)] (by omega)
    (by
      intro it hit
      simp only [List.mem_singleton] at hit
      subst hit
      exact ⟨es, rfl, hef⟩)
  refine ⟨l, hok, hperm.trans ?_⟩
  have hfm : [([], FSTree.dir es)].flatMap (itemFiles h) = allFilesEntries h es := by
    simp only [List.flatMap_cons, List.flatMap_nil, List.append_nil]
    rw [show itemFiles h ([], FSTree.dir es) =
      prefixed [] (allFilesEntries h es) from rfl]
    exact prefixed_nil _
  rw [hfm]

/-- `SyncWalker`: checksum of an error-free, well-formed directory tree is
the canonical digest. -/
theorem syncChecksum_canon (c : Combine) (hc : PermInv c) (h : Hash)
    (es : List (String × FSTree)) (hef : errFreeEntries es = true)
    (hd : allDiff (es.map Prod.fst) = true) (hwfe : fsWFEntries es = true) :
    syncChecksum c h (.dir es) = .ok (canonLevel c [] (allFilesEntries h es)) := by
  obtain ⟨l, hok, hperm⟩ := walkAll_dir_spec h false [] es hef
  simp only [syncChecksum, syncDigestWalk]
  rw [hok]
  exact checksumFrom_spec c hc h es hd hwfe l hperm

/-- `OOThreadsWalker`: same canonical digest for every schedule. -/
theorem oothreadsChecksum_canon (c : Combine) (hc : PermInv c) (h : Hash)
    (sched : List Nat) (es : List (String × FSTree))
    (hef : errFreeEntries es = true)
    (hd : allDiff (es.map Prod.fst) = true) (hwfe : fsWFEntries es = true) :
    oothreadsChecksum c h sched (.dir es) =
      .ok (canonLevel c [] (allFilesEntries h es)) := by
  obtain ⟨l, hok, hperm⟩ := walkAll_dir_spec h true sched es hef
  simp only [oothreadsChecksum, oothreadsDigestWalk, isOsDir, if_true]
  rw [hok]
  exact checksumFrom_spec c hc h es hd hwfe l hperm

/-- `FastioWalker`: same canonical digest for every schedule. -/
theorem fastioChecksum_canon (c : Combine) (hc : PermInv c) (h : Hash)
    (sched : List Nat) (es : List (String × FSTree))
    (hef : errFreeEntries es = true)
    (hd : allDiff (es.map Prod.fst) = true) (hwfe : fsWFEntries es = true) :
    fastioChecksum c h sched (.dir es) =
      .ok (canonLevel c [] (allFilesEntries h es)) := by
  obtain ⟨l, hok, hperm⟩ := walkAll_dir_spec h true sched es hef
  simp only [fastioChecksum, fastioDigestWalk, isOsDir, if_true]
  rw [hok]
  exact checksumFrom_spec c hc h es hd hwfe l hperm

/-- `TrioWalker` / `TrioWalker2`: same canonical digest for every schedule. -/
theorem trioChecksum_canon (c : Combine) (hc : PermInv c) (h : Hash)
    (sched : List Nat) (es : List (String × FSTree))
    (hef : errFreeEntries es = true)
    (hd : allDiff (es.map Prod.fst) = true) (hwfe : fsWFEntries es = true) :
    trioChecksum c h sched (.dir es) =
      .ok (canonLevel c [] (allFilesEntries h es)) := by
  obtain ⟨l, hok, hperm⟩ := walkAll_dir_spec h false sched es hef
  simp only [trioChecksum, trioDigestWalk]
  rw [hok]
  exact checksumFrom_spec c hc h es hd hwfe l hperm

/-!
## ScanError containment
-/

mutual

/-- The tree with every unscannable directory's subtree deleted: what a
strategy that catches `OSError` at the worker boundary effectively
digests. -/
def pruneScan : FSTree → FSTree
  | .dir es => .dir (pruneEntries es)
  | t => t

def pruneEntries : List (String × FSTree) → List (String × FSTree)
  | [] => []
  | (_, .badDir) :: rest => pruneEntries rest
  | (n, .dir es) :: rest => (n, .dir (pruneEntries es)) :: pruneEntries rest
  | (n, .file b) :: rest => (n, .file b) :: pruneEntries rest
  | (n, .badFile) :: rest => (n, .badFile) :: pruneEntries rest

end

theorem allFilesEntries_prune (h : Hash) :
    ∀ (es : List (String × FSTree)),
      allFilesEntries h (pruneEntries es) = allFilesEntries h es
  | [] => by rw [pruneEntries]
  | (n, .badDir) :: rest => by
      rw [pruneEntries, allFilesEntries]
      exact allFilesEntries_prune h rest
  | (n, .dir es) :: rest => by
      rw [pruneEntries, allFilesEntries, allFilesEntries]
      rw [allFilesEntries_prune h es, allFilesEntries_prune h rest]
  | (n, .file b) :: rest => by
      rw [pruneEntries, allFilesEntries, allFilesEntries]
      rw [allFilesEntries_prune h rest]
  | (n, .badFile) :: rest => by
      rw [pruneEntries, allFilesEntries, allFilesEntries]
      exact allFilesEntries_prune h rest

theorem errFree_pruneEntries :
    ∀ (es : List (String × FSTree)), noBadFileEntries es = true →
      errFreeEntries (pruneEntries es) = true
  | [], _ => by rw [pruneEntries]; rfl
  | (n, t) :: rest, hnb => by
      rw [noBadFileEntries] at hnb
      simp only [Bool.and_eq_true] at hnb
      cases t with
      | badDir => rw [pruneEntries]; exact errFree_pruneEntries rest hnb.2
      | dir es => 
          rw [pruneEntries, errFreeEntries]
          simp only [Bool.and_eq_true]
          refine ⟨?_, errFree_pruneEntries rest hnb.2⟩
          rw [errFree]
          exact errFree_pruneEntries es (by rw [noBadFile] at hnb; exact hnb.1)
      | file b =>
          rw [pruneEntries, errFreeEntries]
          simp only [Bool.and_eq_true]
          exact ⟨rfl, errFree_pruneEntries rest hnb.2⟩
      | badFile => simp [noBadFile] at hnb
  
theorem pruneEntries_keys_sublist :
    ∀ (es : List (String × FSTree)),
      ((pruneEntries es).map Prod.fst).Sublist (es.map Prod.fst)
  | [] => by rw [pruneEntries]
  | (n, .badDir) :: rest => by
      rw [pruneEntries, List.map_cons]
      exact List.Sublist.cons _ (pruneEntries_keys_sublist rest)
  | (n, .dir es) :: rest => by
      rw [pruneEntries, List.map_cons, List.map_cons]
      exact List.Sublist.cons₂ _ (pruneEntries_keys_sublist rest)
  | (n, .file b) :: rest => by
      rw [pruneEntries, List.map_cons, List.map_cons]
      exact List.Sublist.cons₂ _ (pruneEntries_keys_sublist rest)
  | (n, .badFile) :: rest => by
      rw [pruneEntries, List.map_cons, List.map_cons]
      exact List.Sublist.cons₂ _ (pruneEntries_keys_sublist rest)

theorem fsWF_pruneEntries :
    ∀ (es : List (String × FSTree)),
      allDiff (es.map Prod.fst) = true → fsWFEntries es = true →
      allDiff ((pruneEntries es).map Prod.fst) = true ∧
        fsWFEntries (pruneEntries es) = true
  | [], _, _ => by rw [pruneEntries]; exact ⟨rfl, rfl⟩
  | (n, t) :: rest, hd, hwf => by
      rw [List.map_cons] at hd
      obtain ⟨hknotin, hdt⟩ := allDiff_cons_split hd
      rw [fsWFEntries] at hwf
      simp only [Bool.and_eq_true] at hwf
      have hrest := fsWF_pruneEntries rest hdt hwf.2
      have hnotin' : ¬ n ∈ (pruneEntries rest).map Prod.fst := fun hmem =>
        hknotin (List.Sublist.mem hmem (pruneEntries_keys_sublist rest))
      have hcons : ∀ (t' : FSTree), fsWF t' = true →
          allDiff (((n, t') :: pruneEntries rest).map Prod.fst) = true ∧
            fsWFEntries ((n, t') :: pruneEntries rest) = true := by
        intro t' hwft'
        constructor
        · rw [List.map_cons, allDiff]
          simp only [Bool.and_eq_true, Bool.not_eq_true']
          refine ⟨?_, hrest.1⟩
          cases hcont : ((pruneEntries rest).map Prod.fst).contains n with
          | false => rfl
          | true => exact absurd ((contains_eq_true_iff _ _).1 hcont) hnotin'
        · rw [fsWFEntries]
          simp only [Bool.and_eq_true]
          exact ⟨hwft', hrest.2⟩
      cases t with
      | badDir => rw [pruneEntries]; exact hrest
      | file b => rw [pruneEntries]; exact hcons (.file b) rfl
      | badFile => rw [pruneEntries]; exact hcons .badFile rfl
      | dir es =>
          rw [pruneEntries]
          refine hcons (.dir (pruneEntries es)) ?_
          rw [fsWF] at hwf ⊢
          simp only [Bool.and_eq_true] at hwf ⊢
          have := fsWF_pruneEntries es hwf.1.1 hwf.1.2
          exact ⟨this.1, this.2⟩

/-!
## The recursive reference checksummer computes the same canonical digest
-/

/-- Keys of the subdirectory entries of a listing. -/
def fsDirKeys (es : List (String × FSTree)) : List String :=
  es.filterMap (fun e =>
    match e.2 with
    | .dir _ => some e.1
    | _ => none)

theorem fsDirKeys_sublist (es : List (String × FSTree)) :
    (fsDirKeys es).Sublist (es.map Prod.fst) := by
  induction es with
  | nil => simp [fsDirKeys]
  | cons e tail ih =>
      obtain ⟨k, t⟩ := e
      cases t with
      | dir es' =>
          simp only [fsDirKeys, List.filterMap_cons, List.map_cons]
          exact List.Sublist.cons₂ _ ih
      | file b =>
          simp only [fsDirKeys, List.filterMap_cons, List.map_cons]
          exact List.Sublist.cons _ ih
      | badFile =>
          simp only [fsDirKeys, List.filterMap_cons, List.map_cons]
          exact List.Sublist.cons _ ih
      | badDir =>
          simp only [fsDirKeys, List.filterMap_cons, List.map_cons]
          exact List.Sublist.cons _ ih

theorem noEmptyDirsEntries_split {n : String} {t : FSTree}
    {rest : List (String × FSTree)}
    (hne : noEmptyDirsEntries ((n, t) :: rest) = true) :
    (∀ es', t = FSTree.dir es' → es' ≠ [] ∧ noEmptyDirsEntries es' = true) ∧
      noEmptyDirsEntries rest = true := by
  rw [noEmptyDirsEntries] at hne
  simp only [Bool.and_eq_true] at hne
  refine ⟨?_, hne.2⟩
  intro es' ht
  subst ht
  have h1 := hne.1
  rw [nonEmptyDir] at h1
  simp only [Bool.and_eq_true, Bool.not_eq_true'] at h1
  refine ⟨?_, h1.2⟩
  intro hc
  subst hc
  simp at h1

/-- An error-free directory with no empty directories below it and at least
one entry holds at least one file somewhere. -/
theorem allFilesEntries_ne_nil (h : Hash) :
    ∀ (es : List (String × FSTree)), errFreeEntries es = true →
      noEmptyDirsEntries es = true → es ≠ [] →
      allFilesEntries h es ≠ []
  | [], _, _, hne => absurd rfl hne
  | (n, t) :: rest, hef, hnem, _ => by
      rw [errFreeEntries] at hef
      simp only [Bool.and_eq_true] at hef
      obtain ⟨hdirne, hnemrest⟩ := noEmptyDirsEntries_split hnem
      cases t with
      | file b => rw [allFilesEntries]; simp
      | dir es' =>
          rw [allFilesEntries]
          obtain ⟨hne', hnem'⟩ := hdirne es' rfl
          have hef' : errFreeEntries es' = true := by
            have := hef.1
            rwa [errFree] at this
          have := allFilesEntries_ne_nil h es' hef' hnem' hne'
          intro hcon
          rcases List.append_eq_nil.1 hcon with ⟨hmap, _⟩
          exact this (List.map_eq_nil.1 hmap)
      | badFile => simp [errFree] at hef
      | badDir => simp [errFree] at hef

theorem stripDir_allFiles_absent (h : Hash) (x : String)
    (es : List (String × FSTree)) (hx : ¬ x ∈ es.map Prod.fst) :
    stripDir x (allFilesEntries h es) = [] := by
  induction es with
  | nil => rw [allFilesEntries]; simp [stripDir]
  | cons e tail ih =>
      obtain ⟨k, t⟩ := e
      have hxk : x ≠ k := fun hc => hx (by simp [hc])
      have hxtail : ¬ x ∈ tail.map Prod.fst := fun hc => hx (by simp [hc])
      cases t with
      | file b =>
          rw [allFilesEntries, stripDir_cons_single]
          exact ih hxtail
      | dir es' =>
          rw [allFilesEntries, stripDir_append,
            stripDir_mapped_other x k hxk _ (allFilesEntries_ne_nil_paths h es'),
            List.nil_append]
          exact ih hxtail
      | badFile =>
          rw [allFilesEntries]
          exact ih hxtail
      | badDir =>
          rw [allFilesEntries]
          exact ih hxtail

/-- Under error-freeness and no-empty-dirs, the recoverable subdirectory
names of the specification stream are exactly the subdirectory keys. -/
theorem headsAux_allFiles_mem (h : Hash) :
    ∀ (es : List (String × FSTree)), errFreeEntries es = true →
      noEmptyDirsEntries es = true →
      ∀ x, x ∈ headsAux (allFilesEntries h es) ↔ x ∈ fsDirKeys es
  | [], _, _, x => by rw [allFilesEntries]; simp [headsAux, fsDirKeys]
  | (n, t) :: rest, hef, hnem, x => by
      rw [errFreeEntries] at hef
      simp only [Bool.and_eq_true] at hef
      obtain ⟨hdirne, hnemrest⟩ := noEmptyDirsEntries_split hnem
      have ih := headsAux_allFiles_mem h rest hef.2 hnemrest x
      cases t with
      | file b =>
          rw [allFilesEntries, headsAux_cons_single]
          rw [show fsDirKeys ((n, FSTree.file b) :: rest) = fsDirKeys rest from by
            simp [fsDirKeys, List.filterMap_cons]]
          exact ih
      | dir es' =>
          rw [allFilesEntries, headsAux_append]
          rw [show fsDirKeys ((n, FSTree.dir es') :: rest) = n :: fsDirKeys rest from by
            simp [fsDirKeys, List.filterMap_cons]]
          obtain ⟨hne', hnem'⟩ := hdirne es' rfl
          have hef' : errFreeEntries es' = true := by
            have := hef.1
            rwa [errFree] at this
          constructor
          · intro hx
            rcases List.mem_append.1 hx with hm | hm
            · exact List.mem_cons.2 (Or.inl
                (headsAux_mapped n _ (allFilesEntries_ne_nil_paths h es') x hm))
            · exact List.mem_cons.2 (Or.inr (ih.1 hm))
          · intro hx
            rcases List.mem_cons.1 hx with hx | hx
            · subst hx
              refine List.mem_append_left _ ?_
              have hafne := allFilesEntries_ne_nil h es' hef' hnem' hne'
              match haf : allFilesEntries h es' with
              | [] => exact absurd haf hafne
              | q₀ :: X =>
                  exact headsAux_mapped_mem x (q₀ :: X) q₀ (List.mem_cons_self _ _)
                    (allFilesEntries_ne_nil_paths h es' q₀
                      (by rw [haf]; exact List.mem_cons_self _ _))
            · exact List.mem_append_right _ (ih.2 hx)
      | badFile => simp [errFree] at hef
      | badDir => simp [errFree] at hef

theorem subdirNames_allFiles (h : Hash) (es : List (String × FSTree))
    (hef : errFreeEntries es = true) (hnem : noEmptyDirsEntries es = true)
    (hd : allDiff (es.map Prod.fst) = true) :
    subdirNames (allFilesEntries h es) = (fsDirKeys es).mergeSort strLe := by
  rw [subdirNames_eq_headsAux,
    dedupSort_eq_of_mem_iff (headsAux_allFiles_mem h es hef hnem)]
  exact dedupSort_of_nodup
    ((fsDirKeys_sublist es).nodup ((allDiff_iff_nodup _).1 hd))

mutual

/-- `RecursiveChecksummer` builds, level by level, the same `files`/`dirs`
mappings as the canonical digest of the specification stream (up to the
canonical sorting). -/
theorem recEntries_canon (c : Combine) (hc : PermInv c) (h : Hash) :
    ∀ (es : List (String × FSTree)) (π : List String),
      errFreeEntries es = true → allDiff (es.map Prod.fst) = true →
      fsWFEntries es = true → noEmptyDirsEntries es = true →
      recEntries c h π es = .ok (levelFiles π (allFilesEntries h es),
        (fsDirKeys es).map (fun k => (joinPath (π ++ [k]),
          canonLevel c (π ++ [k]) (stripDir k (allFilesEntries h es)))))
  | [], π, _, _, _, _ => by
      rw [recEntries, allFilesEntries]
      simp [levelFiles, fsDirKeys]
  | (n, .file b) :: rest, π, hef, hd, hwfe, hnem => by
      rw [errFreeEntries] at hef
      simp only [Bool.and_eq_true] at hef
      rw [List.map_cons] at hd
      obtain ⟨hknotin, hdt⟩ := allDiff_cons_split hd
      rw [fsWFEntries] at hwfe
      simp only [Bool.and_eq_true] at hwfe
      obtain ⟨_, hnemrest⟩ := noEmptyDirsEntries_split hnem
      rw [recEntries, recEntries_canon c hc h rest π hef.2 hdt hwfe.2 hnemrest]
      rw [allFilesEntries, levelFiles_cons_single]
      rw [show fsDirKeys ((n, FSTree.file b) :: rest) = fsDirKeys rest from by
        simp [fsDirKeys, List.filterMap_cons]]
      simp only [stripDir_cons_single]
  | (n, .dir es') :: rest, π, hef, hd, hwfe, hnem => by
      rw [errFreeEntries] at hef
      simp only [Bool.and_eq_true] at hef
      have hef' : errFreeEntries es' = true := by
        have := hef.1
        rwa [errFree] at this
      rw [List.map_cons] at hd
      obtain ⟨hknotin, hdt⟩ := allDiff_cons_split hd
      rw [fsWFEntries] at hwfe
      simp only [Bool.and_eq_true] at hwfe
      have hwf' := hwfe.1
      rw [fsWF] at hwf'
      simp only [Bool.and_eq_true] at hwf'
      obtain ⟨hdirne, hnemrest⟩ := noEmptyDirsEntries_split hnem
      obtain ⟨hne', hnem'⟩ := hdirne es' rfl
      have hfalse : es'.isEmpty = false := by
        cases es' with
        | nil => exact absurd rfl hne'
        | cons a as => rfl
      rw [recEntries, if_neg (fun hcond => by
        rw [hfalse] at hcond
        exact Bool.noConfusion hcond)]
      rw [recDigest_canon c hc h es' (π ++ [n]) hef' hwf'.1 hwf'.2 hnem']
      rw [recEntries_canon c hc h rest π hef.2 hdt hwfe.2 hnemrest]
      rw [allFilesEntries]
      rw [show fsDirKeys ((n, FSTree.dir es') :: rest) = n :: fsDirKeys rest from by
        simp [fsDirKeys, List.filterMap_cons]]
      simp only [Except.ok.injEq, Prod.mk.injEq, List.map_cons]
      refine ⟨?_, ?_⟩
      · rw [levelFiles_append,
          levelFiles_mapped π n _ (allFilesEntries_ne_nil_paths h es'),
          List.nil_append]
      · rw [stripDir_append,
          stripDir_mapped_same n _ (allFilesEntries_ne_nil_paths h es'),
          stripDir_allFiles_absent h n rest hknotin, List.append_nil]
        congr 1
        refine List.map_congr_left ?_
        intro x hx
        have hxkeys : x ∈ rest.map Prod.fst :=
          List.Sublist.mem hx (fsDirKeys_sublist rest)
        have hxk : x ≠ n := fun hcon => hknotin (hcon ▸ hxkeys)
        rw [stripDir_append,
          stripDir_mapped_other x n hxk _ (allFilesEntries_ne_nil_paths h es'),
          List.nil_append]
  | (n, .badFile) :: rest, π, hef, _, _, _ => by
      rw [errFreeEntries] at hef
      simp [errFree] at hef
  | (n, .badDir) :: rest, π, hef, _, _, _ => by
      rw [errFreeEntries] at hef
      simp [errFree] at hef
  termination_by es π hef hd hwfe hnem => (sizeOf es, 0)

/-- `RecursiveChecksummer.checksum` on one directory level computes the
canonical digest of the files below it. -/
theorem recDigest_canon (c : Combine) (hc : PermInv c) (h : Hash) :
    ∀ (es : List (String × FSTree)) (π : List String),
      errFreeEntries es = true → allDiff (es.map Prod.fst) = true →
      fsWFEntries es = true → noEmptyDirsEntries es = true →
      recDigest c h π es = .ok (canonLevel c π (allFilesEntries h es))
  | es, π, hef, hd, hwfe, hnem => by
      rw [recDigest, recEntries_canon c hc h es π hef hd hwfe hnem]
      dsimp only
      simp only [Except.ok.injEq]
      rw [canonLevel_eq, subdirNames_allFiles h es hef hnem hd]
      refine hc _ _ _ _ (sortPairs_perm _).symm ?_
      exact ((List.mergeSort_perm _ _).map _).symm
  termination_by es π hef hd hwfe hnem => (sizeOf es, 1)

end

/-!
## Task Queue invariants
-/

/-- One protocol step preserves the accounting identity between `_tasks`,
the pending deque, and the items currently held by workers. -/
theorem jsStep_invariant {s s' : JSState} (hstep : JSStep s s')
    (hinv : s.tasks = s.queue.length + s.held) :
    s'.tasks = s'.queue.length + s'.held := by
  cases hstep with
  | take v rest hne hq =>
      simp only
      rw [hq] at hinv
      simp only [List.length_cons] at hinv
      omega
  | put v hheld =>
      simp only [List.length_cons]
      omega
  | retire hheld =>
      simp only
      omega

theorem jsReachable_invariant (seed : List Nat) (s : JSState)
    (hr : JSReachable seed s) : s.tasks = s.queue.length + s.held := by
  induction hr with
  | refl => rfl
  | tail hprefix hstep ih => exact jsStep_invariant hstep ih

/-- In the terminal state no protocol step applies. -/
theorem jsStep_none_of_terminal {s s' : JSState} (hz : s.tasks = 0)
    (hh : s.held = 0) (hstep : JSStep s s') : False := by
  cases hstep with
  | take v rest hne hq => exact hne hz
  | put v hheld => exact hheld hh
  | retire hheld => exact hheld hh

/-- `__iter__` returns (instead of yielding or blocking) exactly when
`_tasks` has dropped to zero. -/
theorem takeOrDone_done_iff (s : JSState) : takeOrDone s = .done ↔ s.tasks = 0 := by
  unfold takeOrDone
  split
  · simp [*]
  · rename_i hne
    constructor
    · intro hcon
      cases hq : s.queue with
      | nil => rw [hq] at hcon; simp at hcon
      | cons v rest => rw [hq] at hcon; simp at hcon
    · intro hz; exact absurd hz hne

theorem terminal_absorbing (seed : List Nat) (s : JSState)
    (hr : JSReachable seed s) (hz : s.tasks = 0) :
    s.queue = [] ∧ takeOrDone s = .done ∧
      ∀ s', Relation.ReflTransGen JSStep s s' → s' = s := by
  have hinv := jsReachable_invariant seed s hr
  have hq : s.queue = [] := by
    cases hq : s.queue with
    | nil => rfl
    | cons v rest => rw [hq] at hinv; simp [List.length_cons] at hinv; omega
  have hh : s.held = 0 := by rw [hq] at hinv; simp at hinv; omega
  refine ⟨hq, (takeOrDone_done_iff s).mpr hz, ?_⟩
  intro s' hsteps
  induction hsteps with
  | refl => rfl
  | tail hpre hstep ih =>
      subst ih
      exact absurd hstep (fun hc => jsStep_none_of_terminal hz hh hc)

/-!
## Counting emitted files
-/

theorem allFilesEntries_length (h : Hash) :
    ∀ es : List (String × FSTree),
      (allFilesEntries h es).length = countFilesEntries es
  | [] => by simp [allFilesEntries, countFilesEntries]
  | (n, FSTree.file b) :: rest => by
      simp only [allFilesEntries, countFilesEntries, countFiles,
        List.length_cons]
      rw [allFilesEntries_length h rest]
      omega
  | (n, FSTree.badFile) :: rest => by
      simp only [allFilesEntries, countFilesEntries, countFiles]
      rw [allFilesEntries_length h rest]
      omega
  | (n, FSTree.dir es') :: rest => by
      simp only [allFilesEntries, countFilesEntries, countFiles,
        List.length_append, List.length_map]
      rw [allFilesEntries_length h es', allFilesEntries_length h rest]
  | (n, FSTree.badDir) :: rest => by
      simp only [allFilesEntries, countFilesEntries, countFiles]
      rw [allFilesEntries_length h rest]
      omega

/-- A walk that catches `OSError` (at the root of a directory tree with no
bad files): always succeeds and emits the files of every scannable
directory. -/
theorem walkAll_dir_spec_catch (h : Hash) (sched : List Nat)
    (es : List (String × FSTree)) (hnb : noBadFileEntries es = true) :
    ∃ l, walkAll true h sched [([], FSTree.dir es)] = .ok l ∧
      l.Perm (allFilesEntries h es) := by
  obtain ⟨l, hok, hperm⟩ := walkAll_spec_catch h
    (pendingSize [([], FSTree.dir es)] + 1)
    sched [([], FSTree.dir es)] (by omega)
    (by
      intro it hit
      simp only [List.mem_singleton] at hit
      subst hit
      simp only [noBadFile]
      exact hnb)
  refine ⟨l, hok, hperm.trans ?_⟩
  have hfm : [([], FSTree.dir es)].flatMap (itemFiles h) =
      allFilesEntries h es := by
    simp only [List.flatMap_cons, List.flatMap_nil, List.append_nil]
    rw [show itemFiles h ([], FSTree.dir es) =
      prefixed [] (allFilesEntries h es) from rfl]
    exact prefixed_nil _
  rw [hfm]

/-- `OOThreadsWalker` on a tree whose only errors are unscannable
directories: the worker-level `except OSError` contains the failures, and
the checksum is the canonical digest of the files that remain reachable. -/
theorem oothreadsChecksum_scanerr (c : Combine) (hc : PermInv c) (h : Hash)
    (sched : List Nat) (es : List (String × FSTree))
    (hnb : noBadFileEntries es = true)
    (hd : allDiff (es.map Prod.fst) = true) (hwfe : fsWFEntries es = true) :
    oothreadsChecksum c h sched (.dir es) =
      .ok (canonLevel c [] (allFilesEntries h es)) := by
  obtain ⟨l, hok, hperm⟩ := walkAll_dir_spec_catch h sched es hnb
  simp only [oothreadsChecksum, oothreadsDigestWalk, isOsDir, if_true]
  rw [hok]
  exact checksumFrom_spec c hc h es hd hwfe l hperm

/-- `FastioWalker`: same containment of scan errors. -/
theorem fastioChecksum_scanerr (c : Combine) (hc : PermInv c) (h : Hash)
    (sched : List Nat) (es : List (String × FSTree))
    (hnb : noBadFileEntries es = true)
    (hd : allDiff (es.map Prod.fst) = true) (hwfe : fsWFEntries es = true) :
    fastioChecksum c h sched (.dir es) =
      .ok (canonLevel c [] (allFilesEntries h es)) := by
  obtain ⟨l, hok, hperm⟩ := walkAll_dir_spec_catch h sched es hnb
  simp only [fastioChecksum, fastioDigestWalk, isOsDir, if_true]
  rw [hok]
  exact checksumFrom_spec c hc h es hd hwfe l hperm

/-- `SyncWalker` has no `OSError` handler: an unscannable directory aborts
the whole checksum. -/
theorem syncChecksum_abort (c : Combine) (h : Hash)
    (es : List (String × FSTree)) (hnb : noBadFileEntries es = true)
    (hbad : errFreeEntries es = false) :
    syncChecksum c h (.dir es) = .error () := by
  have herr := walkAll_error h (pendingSize [([], FSTree.dir es)] + 1) []
    [([], FSTree.dir es)] (by omega)
    (by
      intro it hit
      simp only [List.mem_singleton] at hit
      subst hit
      simp only [noBadFile]
      exact hnb)
    ⟨([], FSTree.dir es), List.mem_singleton.mpr rfl, by
      simp only [errFree]; exact hbad⟩
  simp only [syncChecksum, syncDigestWalk]
  rw [herr]
  rfl

/-- `TrioWalker` / `TrioWalker2` have no `OSError` handler either: every
schedule aborts. -/
theorem trioChecksum_abort (c : Combine) (h : Hash) (sched : List Nat)
    (es : List (String × FSTree)) (hnb : noBadFileEntries es = true)
    (hbad : errFreeEntries es = false) :
    trioChecksum c h sched (.dir es) = .error () := by
  have herr := walkAll_error h (pendingSize [([], FSTree.dir es)] + 1) sched
    [([], FSTree.dir es)] (by omega)
    (by
      intro it hit
      simp only [List.mem_singleton] at hit
      subst hit
      simp only [noBadFile]
      exact hnb)
    ⟨([], FSTree.dir es), List.mem_singleton.mpr rfl, by
      simp only [errFree]; exact hbad⟩
  simp only [trioChecksum, trioDigestWalk]
  rw [herr]
  rfl

/-!
## Conflicting streams make the compiler fail
-/

/-- Once some already-stored path is comparable with a later pair's path,
the compile loop aborts (at the latest when it reaches that pair). -/
theorem compileChildren_err_mem (qp : List String) (qd : String) :
    ∀ (l₂ : List (List String × String)) (l₃ : List (List String × String))
      (cs : List (String × Node)),
      allDiff (cs.map Prod.fst) = true → wfEach [] cs = true →
      (∃ r ∈ flatten cs, comparablePaths r.1 qp = true) →
      compileChildren (l₂ ++ (qp, qd) :: l₃) cs = .error () := by
  intro l₂
  induction l₂ with
  | nil =>
      intro l₃ cs hd hwf hex
      simp only [List.nil_append, compileChildren]
      rw [insertPath_err cs [] qp qd hd hwf hex]
  | cons a l₂ ih =>
      intro l₃ cs hd hwf hex
      obtain ⟨ap, ad⟩ := a
      simp only [List.cons_append, compileChildren]
      cases hins : insertPath cs [] ap ad with
      | error e => rfl
      | ok cs₁ =>
          obtain ⟨r, hr, hcomp⟩ := hex
          have hfl := insertPath_flatten cs [] ap ad cs₁ hins
          have hwf' := insertPath_wf cs [] ap ad cs₁ hins hd hwf
          exact ih l₃ cs₁ hwf'.1 hwf'.2.1
            ⟨r, hfl.mem_iff.2 (List.mem_cons_of_mem _ hr), hcomp⟩

/-- A stream containing two pairs with comparable relative paths (equal, or
one an initial segment of the other) never compiles: `ZarrChecksumCompiler`
raises at one of the two `assert`s. -/
theorem compileStream_conflict (l₁ l₂ l₃ : List (List String × String))
    (pp qp : List String) (pd qd : String)
    (hcomp : comparablePaths pp qp = true) :
    compileStream (l₁ ++ ((pp, pd) :: (l₂ ++ ((qp, qd) :: l₃)))) = .error () := by
  simp only [compileStream]
  rw [compileChildren_append l₁ ((pp, pd) :: (l₂ ++ ((qp, qd) :: l₃))) []]
  cases hc1 : compileChildren l₁ [] with
  | error e => rfl
  | ok cs₁ =>
      have hwf₁ := compileChildren_wf l₁ [] cs₁ hc1 rfl rfl
      simp only [compileChildren]
      cases hins : insertPath cs₁ [] pp pd with
      | error e => rfl
      | ok cs₂ =>
          have hfl := insertPath_flatten cs₁ [] pp pd cs₂ hins
          have hwf₂ := insertPath_wf cs₁ [] pp pd cs₂ hins hwf₁.1 hwf₁.2
          dsimp only
          rw [compileChildren_err_mem qp qd l₂ l₃ cs₂ hwf₂.1 hwf₂.2.1
            ⟨(pp, pd), hfl.mem_iff.2 (List.mem_cons_self _ _), hcomp⟩]

/-!
## Concrete instances

A concrete order-independent combination function and a concrete injective
leaf digest, plus small trees, used to evaluate the development on closed
inputs.
-/

/-- A numeric code for one mapping entry. -/
def pairCode (p : String × String) : Nat :=
  (p.1.data.map Char.toNat).sum * 1000 + (p.2.data.map Char.toNat).sum

/-- A concrete combination function: sums the entry codes of the two
mappings, so it is order-independent by construction. -/
def cEx : Combine := fun fs ds =>
  toString ((fs.map pairCode).sum) ++ ";" ++ toString ((ds.map pairCode).sum)

theorem cEx_permInv : PermInv cEx := by
  intro fs₁ fs₂ ds₁ ds₂ hf hd
  unfold cEx
  rw [List.Perm.sum_eq (hf.map pairCode), List.Perm.sum_eq (hd.map pairCode)]

/-- A concrete leaf digest. -/
def hEx : Hash := fun b =>
  "h" ++ toString (b.foldl (fun a x => a * 300 + x + 1) 7)

/-- The tree of the spec's example scenario: root containing `a.txt`
(bytes "x" = `[120]`) and `d/b.txt` (bytes "y" = `[121]`). -/
def t4es : List (String × FSTree) :=
  [("a.txt", FSTree.file [120]), ("d", FSTree.dir [("b.txt", FSTree.file [121])])]

def t4 : FSTree := FSTree.dir t4es

/-- A tree with one unscannable subdirectory (ScanError) and one ordinary
file. -/
def tScanEs : List (String × FSTree) :=
  [("e", FSTree.badDir), ("f", FSTree.file [119])]

/-- A tree with one unreadable file (ReadError) listed before an ordinary
file. -/
def tReadEs : List (String × FSTree) :=
  [("z", FSTree.badFile), ("a", FSTree.file [119])]

/-- `tReadEs` with the failed file deleted. -/
def tReadDelEs : List (String × FSTree) :=
  [("a", FSTree.file [119])]

/-- A two-pair stream and its transposition, with their compiled trees. -/
def l1w : List (List String × String) := [(["a"], "x"), (["b"], "y")]

def l2w : List (List String × String) := [(["b"], "y"), (["a"], "x")]

def t1w : Node := Node.dir "" [("a", Node.file "a" "x"), ("b", Node.file "b" "y")]

def t2w : Node := Node.dir "" [("b", Node.file "b" "y"), ("a", Node.file "a" "x")]

/-!
## Any error aborts the strategies without an OSError handler
-/

/-- If scanning a directory listing itself succeeded (no direct bad file
stopped it) but the subtree is not error-free, one of the produced work
items has the failing subtree. -/
theorem processEntries_flag_bad (h : Hash) (π : List String) :
    ∀ es : List (String × FSTree),
      (processEntries h π es).2.2 = true → errFreeEntries es = false →
      ∃ j ∈ (processEntries h π es).1, errFree j.2 = false
  | [] => by
      intro _ he
      rw [errFreeEntries] at he
      exact Bool.noConfusion he
  | (n, FSTree.file b) :: rest => by
      intro hf he
      simp only [processEntries] at hf ⊢
      rw [errFreeEntries] at he
      simp only [errFree, Bool.true_and] at he
      exact processEntries_flag_bad h π rest hf he
  | (n, FSTree.badFile) :: rest => by
      intro hf _
      simp only [processEntries] at hf
      exact Bool.noConfusion hf
  | (n, FSTree.dir es') :: rest => by
      intro hf he
      simp only [processEntries] at hf ⊢
      rw [errFreeEntries] at he
      cases hsub : errFree (FSTree.dir es') with
      | false =>
          exact ⟨(π ++ [n], FSTree.dir es'), List.mem_cons_self _ _, hsub⟩
      | true =>
          rw [hsub, Bool.true_and] at he
          obtain ⟨j, hj, hjb⟩ := processEntries_flag_bad h π rest hf he
          exact ⟨j, List.mem_cons_of_mem _ hj, hjb⟩
  | (n, FSTree.badDir) :: rest => by
      intro _ _
      simp only [processEntries]
      exact ⟨(π ++ [n], FSTree.badDir), List.mem_cons_self _ _, rfl⟩

/-- Without an `OSError` handler, a walk over a tree with any error —
unscannable directory (ScanError) or unreadable file (ReadError) — aborts
as a whole, under every schedule. -/
theorem walkAll_error_any (h : Hash) :
    ∀ (N : Nat) (sched : List Nat) (pending : List (List String × FSTree)),
      pendingSize pending ≤ N →
      (∃ it ∈ pending, errFree it.2 = false) →
      walkAll false h sched pending = .error () := by
  intro N
  induction N with
  | zero =>
      intro sched pending hN hbad
      match pending with
      | [] =>
          obtain ⟨it, hit, _⟩ := hbad
          exact absurd hit (List.not_mem_nil it)
      | p :: ps =>
          exfalso
          have hp := size_pos p.2
          have : pendingSize (p :: ps) = p.2.size + pendingSize ps := by
            simp [pendingSize]
          omega
  | succ n ih =>
      intro sched pending hN hbad
      match pending with
      | [] =>
          obtain ⟨it, hit, _⟩ := hbad
          exact absurd hit (List.not_mem_nil it)
      | p :: ps =>
          simp only [walkAll]
          generalize hidx : sched.headD 0 % (p :: ps).length = i
          have hi : i < (p :: ps).length := hidx ▸ Nat.mod_lt _ (by simp)
          generalize hit : (p :: ps).getD i ([], FSTree.badDir) = item
          have hmem : item ∈ p :: ps := hit ▸ getD_mem_of_lt _ _ _ hi
          obtain ⟨π, t⟩ := item
          have hsz := pendingSize_eraseIdx (p :: ps) i hi ([], FSTree.badDir)
          rw [hit] at hsz
          have hperm := getD_cons_eraseIdx_perm (p :: ps) i hi ([], FSTree.badDir)
          rw [hit] at hperm
          cases t with
          | file c => rfl
          | badFile => rfl
          | badDir => rfl
          | dir es =>
              rw [show processItem h (π, FSTree.dir es) =
                processEntries h π es from rfl]
              cases hflag : (processEntries h π es).2.2 with
              | false => simp [hflag]
              | true =>
                  simp only [hflag, Bool.true_or, if_true]
                  have hds := processEntries_jobs_size h π es
                  have hdirsz : (π, FSTree.dir es).2.size = 1 + sizeEntries es := by
                    simp [FSTree.size]
                  have hpcons : pendingSize (p :: ps) ≤ n + 1 := hN
                  have hnew : pendingSize ((p :: ps).eraseIdx i ++
                      (processEntries h π es).1) ≤ n := by
                    rw [pendingSize_append]
                    omega
                  have hbad' : ∃ it ∈ (p :: ps).eraseIdx i ++
                      (processEntries h π es).1, errFree it.2 = false := by
                    by_cases hcase : errFreeEntries es = true
                    · obtain ⟨it₀, hm₀, hb₀⟩ := hbad
                      have hne : it₀ ≠ (π, FSTree.dir es) := by
                        intro hcontra
                        rw [hcontra] at hb₀
                        rw [show errFree (π, FSTree.dir es).2 =
                          errFreeEntries es from rfl, hcase] at hb₀
                        exact Bool.noConfusion hb₀
                      have hm₁ : it₀ ∈ (π, FSTree.dir es) :: (p :: ps).eraseIdx i :=
                        hperm.symm.mem_iff.1 hm₀
                      rcases List.mem_cons.1 hm₁ with hc | hc
                      · exact absurd hc hne
                      · exact ⟨it₀, List.mem_append_left _ hc, hb₀⟩
                    · obtain ⟨j, hj, hjb⟩ := processEntries_flag_bad h π es hflag
                        (by
                          cases hc2 : errFreeEntries es with
                          | true => exact absurd hc2 hcase
                          | false => rfl)
                      exact ⟨j, List.mem_append_right _ hj, hjb⟩
                  rw [ih sched.tail _ hnew hbad']

/-- `SyncWalker`: any error in the tree (ScanError or ReadError) aborts the
whole checksum. -/
theorem syncChecksum_abort_of_error (c : Combine) (h : Hash)
    (es : List (String × FSTree)) (hbad : errFreeEntries es = false) :
    syncChecksum c h (.dir es) = .error () := by
  have herr := walkAll_error_any h (pendingSize [([], FSTree.dir es)] + 1) []
    [([], FSTree.dir es)] (by omega)
    ⟨([], FSTree.dir es), List.mem_singleton.mpr rfl, by
      simp only [errFree]; exact hbad⟩
  simp only [syncChecksum, syncDigestWalk]
  rw [herr]
  rfl

/-- `TrioWalker` / `TrioWalker2`: any error in the tree aborts the whole
checksum, under every schedule. -/
theorem trioChecksum_abort_of_error (c : Combine) (h : Hash) (sched : List Nat)
    (es : List (String × FSTree)) (hbad : errFreeEntries es = false) :
    trioChecksum c h sched (.dir es) = .error () := by
  have herr := walkAll_error_any h (pendingSize [([], FSTree.dir es)] + 1) sched
    [([], FSTree.dir es)] (by omega)
    ⟨([], FSTree.dir es), List.mem_singleton.mpr rfl, by
      simp only [errFree]; exact hbad⟩
  simp only [trioChecksum, trioDigestWalk]
  rw [herr]
  rfl

/-!
## The claims
-/

/-- C1: for a fixed error-free directory tree (with the distinct entry
names any real listing has), and assuming the external combination function
is order-independent, `checksum(root)` returns the same digest under every
Walker strategy and under every schedule — i.e. every parallelism level and
interleaving: the thread-pool and cooperative strategies all agree with the
sequential result. -/
theorem C1_strategy_equivalence (c : Combine) (h : Hash)
    (es : List (String × FSTree)) (hc : PermInv c)
    (hef : errFreeEntries es = true)
    (hd : allDiff (es.map Prod.fst) = true) (hwfe : fsWFEntries es = true)
    (sched₁ sched₂ sched₃ : List Nat) :
    oothreadsChecksum c h sched₁ (.dir es) = syncChecksum c h (.dir es) ∧
    fastioChecksum c h sched₂ (.dir es) = syncChecksum c h (.dir es) ∧
    trioChecksum c h sched₃ (.dir es) = syncChecksum c h (.dir es) := by
  rw [syncChecksum_canon c hc h es hef hd hwfe,
    oothreadsChecksum_canon c hc h sched₁ es hef hd hwfe,
    fastioChecksum_canon c hc h sched₂ es hef hd hwfe,
    trioChecksum_canon c hc h sched₃ es hef hd hwfe]
  exact ⟨rfl, rfl, rfl⟩

theorem C1_strategy_equivalence_witness :
    PermInv cEx ∧ errFreeEntries t4es = true ∧
    allDiff (t4es.map Prod.fst) = true ∧ fsWFEntries t4es = true ∧
    oothreadsChecksum cEx hEx [1] (.dir t4es) = syncChecksum cEx hEx (.dir t4es) :=
  ⟨cEx_permInv, by decide, by decide, by decide,
    (C1_strategy_equivalence cEx hEx t4es cEx_permInv (by decide) (by decide)
      (by decide) [1] [2] [3]).1⟩

/-- C2: over an error-free directory tree every strategy's walk terminates
with a closed stream of exactly `countFiles` (path, digest) pairs — every
reachable file exactly once (the emitted list is a permutation of the
specification list `allFilesEntries`) — for every schedule. -/
theorem C2_emission_count (h : Hash) (es : List (String × FSTree))
    (hef : errFreeEntries es = true) (sched : List Nat) :
    (∃ l, syncDigestWalk h (.dir es) = .ok l ∧
      l.length = countFiles (.dir es) ∧ l.Perm (allFilesEntries h es)) ∧
    (∃ l, oothreadsDigestWalk h sched (.dir es) = .ok l ∧
      l.length = countFiles (.dir es) ∧ l.Perm (allFilesEntries h es)) ∧
    (∃ l, fastioDigestWalk h sched (.dir es) = .ok l ∧
      l.length = countFiles (.dir es) ∧ l.Perm (allFilesEntries h es)) ∧
    (∃ l, trioDigestWalk h sched (.dir es) = .ok l ∧
      l.length = countFiles (.dir es) ∧ l.Perm (allFilesEntries h es)) := by
  have hcf : countFiles (FSTree.dir es) = countFilesEntries es := by
    simp [countFiles]
  have hgen : ∀ (catchErr : Bool) (sc : List Nat),
      ∃ l, walkAll catchErr h sc [([], FSTree.dir es)] = .ok l ∧
        l.length = countFiles (FSTree.dir es) ∧
        l.Perm (allFilesEntries h es) := by
    intro catchErr sc
    obtain ⟨l, hok, hperm⟩ := walkAll_dir_spec h catchErr sc es hef
    exact ⟨l, hok, by rw [hperm.length_eq, allFilesEntries_length, hcf], hperm⟩
  refine ⟨?_, ?_, ?_, ?_⟩
  · simpa only [syncDigestWalk] using hgen false []
  · simp only [oothreadsDigestWalk, isOsDir, if_true]
    exact hgen true sched
  · simp only [fastioDigestWalk, isOsDir, if_true]
    exact hgen true sched
  · simpa only [trioDigestWalk] using hgen false sched

theorem C2_emission_count_witness :
    errFreeEntries t4es = true ∧
    (∃ l, syncDigestWalk hEx (.dir t4es) = .ok l ∧
      l.length = countFiles (.dir t4es) ∧ l.Perm (allFilesEntries hEx t4es)) :=
  ⟨by decide, (C2_emission_count hEx t4es (by decide) [1]).1⟩

/-- C3: the Task Queue's iteration protocol returns "done" exactly when the
outstanding count `_tasks` is zero (in particular only then), and the
terminal state of any reachable configuration is absorbing: once `_tasks`
is zero the pending queue is empty and every later configuration is the
same state, on which every iterator again returns "done" and never yields
an item. -/
theorem C3_done_terminal (seed : List Nat) (s : JSState)
    (hr : JSReachable seed s) :
    (takeOrDone s = .done ↔ s.tasks = 0) ∧
    (s.tasks = 0 → s.queue = [] ∧
      ∀ s', Relation.ReflTransGen JSStep s s' →
        s' = s ∧ takeOrDone s' = .done) := by
  refine ⟨takeOrDone_done_iff s, fun hz => ?_⟩
  obtain ⟨hq, hdone, habs⟩ := terminal_absorbing seed s hr hz
  exact ⟨hq, fun s' hs' => ⟨habs s' hs', by rw [habs s' hs']; exact hdone⟩⟩

theorem C3_done_terminal_witness :
    JSReachable [] (jsInit []) ∧
      (takeOrDone (jsInit []) = .done ↔ (jsInit []).tasks = 0) :=
  ⟨Relation.ReflTransGen.refl,
    (C3_done_terminal [] (jsInit []) Relation.ReflTransGen.refl).1⟩

/-- C4 counterexample: on the spec's example tree (root with `a.txt` of
bytes "x" and `d/b.txt` of bytes "y") the sequential checksum is NOT
`combine(\x7b"a.txt": md5("x")\x7d, \x7b"d": combine(\x7b"b.txt": md5("y")\x7d, \x7b\x7d)\x7d)`:
the inner file mapping is keyed by the full relative path `d/b.txt`, not by
the immediate child name `b.txt` (`Directory.get_digest` keys both mappings
by `n.path`, the slash-joined path from the root). -/
theorem C4_counterexample :
    syncChecksum cEx hEx t4 ≠
      Except.ok (cEx [("a.txt", hEx [120])]
        [("d", cEx [("b.txt", hEx [121])] [])]) := by
  have h1 : syncChecksum cEx hEx t4 =
      Except.ok (cEx [("a.txt", hEx [120])]
        [("d", cEx [("d/b.txt", hEx [121])] [])]) := by
    simp [syncChecksum, syncDigestWalk, walkAll, processItem, processEntries,
      t4, t4es, checksumFrom, compileStream, compileChildren, insertPath,
      seekDir, nodeDigest, fileEntries, dirEntries, joinPath]
    rfl
  rw [h1]
  intro hcon
  rw [Except.ok.injEq] at hcon
  exact absurd hcon (by decide)

/-- C4 (amended): a directory's digest is one call to the combination
function with the file-children mapping and the subdirectory-children
mapping, but both are keyed by each child's full slash-joined relative path
from the root (`n.path`), not by its immediate name; on the example tree
every strategy and every schedule returns
`combine(\x7b"a.txt": md5("x")\x7d, \x7b"d": combine(\x7b"d/b.txt": md5("y")\x7d, \x7b\x7d)\x7d)`. -/
theorem C4_full_path_keys (c : Combine) (h : Hash)
    (sched₁ sched₂ sched₃ : List Nat) :
    syncChecksum c h t4 =
      Except.ok (c [("a.txt", h [120])] [("d", c [("d/b.txt", h [121])] [])]) ∧
    oothreadsChecksum c h sched₁ t4 =
      Except.ok (c [("a.txt", h [120])] [("d", c [("d/b.txt", h [121])] [])]) ∧
    fastioChecksum c h sched₂ t4 =
      Except.ok (c [("a.txt", h [120])] [("d", c [("d/b.txt", h [121])] [])]) ∧
    trioChecksum c h sched₃ t4 =
      Except.ok (c [("a.txt", h [120])] [("d", c [("d/b.txt", h [121])] [])]) := by
  refine ⟨?_, ?_, ?_, ?_⟩
  · simp [syncChecksum, syncDigestWalk, walkAll, processItem, processEntries,
      t4, t4es, checksumFrom, compileStream, compileChildren, insertPath,
      seekDir, nodeDigest, fileEntries, dirEntries, joinPath]
    rfl
  · simp [oothreadsChecksum, oothreadsDigestWalk, isOsDir, walkAll,
      processItem, processEntries, t4, t4es, Nat.mod_one, checksumFrom,
      compileStream, compileChildren, insertPath, seekDir, nodeDigest,
      fileEntries, dirEntries, joinPath]
    rfl
  · simp [fastioChecksum, fastioDigestWalk, isOsDir, walkAll, processItem,
      processEntries, t4, t4es, Nat.mod_one, checksumFrom, compileStream,
      compileChildren, insertPath, seekDir, nodeDigest, fileEntries,
      dirEntries, joinPath]
    rfl
  · simp [trioChecksum, trioDigestWalk, walkAll, processItem, processEntries,
      t4, t4es, Nat.mod_one, checksumFrom, compileStream, compileChildren,
      insertPath, seekDir, nodeDigest, fileEntries, dirEntries, joinPath]
    rfl

/-- C5: assuming the combination function is order-independent, the Digest
Compiler's root digest is the same for every permutation of the incoming
(relative path, digest) stream. -/
theorem C5_order_independence (c : Combine) (hc : PermInv c)
    (l₁ l₂ : List (List String × String)) (hperm : l₁.Perm l₂)
    (t₁ t₂ : Node) (h₁ : compileStream l₁ = .ok t₁)
    (h₂ : compileStream l₂ = .ok t₂) :
    nodeDigest c t₁ = nodeDigest c t₂ := by
  rw [nodeDigest_canon c hc l₁ t₁ h₁, nodeDigest_canon c hc l₂ t₂ h₂]
  exact canonLevel_congr c [] hperm

theorem C5_order_independence_witness :
    l1w.Perm l2w ∧ compileStream l1w = .ok t1w ∧ compileStream l2w = .ok t2w ∧
      nodeDigest cEx t1w = nodeDigest cEx t2w := by
  have hp : l1w.Perm l2w := by decide
  have h1 : compileStream l1w = .ok t1w := by
    simp [l1w, t1w, compileStream, compileChildren, insertPath, joinPath]
    exact ⟨rfl, rfl⟩
  have h2 : compileStream l2w = .ok t2w := by
    simp [l2w, t2w, compileStream, compileChildren, insertPath, joinPath]
    exact ⟨rfl, rfl⟩
  exact ⟨hp, h1, h2,
    C5_order_independence cEx cEx_permInv l1w l2w hp t1w t2w h1 h2⟩

/-- C6: a stream containing two pairs with the same relative path, or with
one pair's path an initial segment of the other's (a component used once as
a file and once as a directory), makes the compiler fail fast — the
checksum step raises (`StructuralError`, the `assert`s of
`ZarrChecksumCompiler.add`) and no digest is returned, wherever in the
stream the two offending pairs sit. -/
theorem C6_conflict_fails (c : Combine)
    (l₁ l₂ l₃ : List (List String × String))
    (pp qp : List String) (pd qd : String)
    (hcomp : comparablePaths pp qp = true) :
    checksumFrom c (.ok (l₁ ++ ((pp, pd) :: (l₂ ++ ((qp, qd) :: l₃))))) =
      .error () := by
  simp only [checksumFrom]
  rw [compileStream_conflict l₁ l₂ l₃ pp qp pd qd hcomp]

theorem C6_conflict_fails_witness :
    comparablePaths ["a"] ["a"] = true ∧
    checksumFrom cEx
      (.ok ([] ++ ((["a"], "x") :: ([] ++ ((["a"], "y") :: []))))) =
      .error () :=
  ⟨by decide, C6_conflict_fails cEx [] [] [] ["a"] ["a"] "x" "y" (by decide)⟩

/-- C7 counterexample: the containment claim does not hold "for every Walker
strategy".  `SyncWalker` has no `OSError` handler, so a ScanError — and
likewise a ReadError — aborts the whole checksum; and even for the catching
`OOThreadsWalker`, a ReadError on one file makes the worker abandon the rest
of that directory's listing, so the digest differs from that of the same
tree with only the failed file deleted. -/
theorem C7_counterexample :
    syncChecksum cEx hEx (.dir tScanEs) = .error () ∧
    syncChecksum cEx hEx (.dir tReadEs) = .error () ∧
    oothreadsChecksum cEx hEx [] (.dir tReadEs) ≠
      oothreadsChecksum cEx hEx [] (.dir tReadDelEs) := by
  refine ⟨syncChecksum_abort cEx hEx tScanEs (by decide) (by decide),
    syncChecksum_abort_of_error cEx hEx tReadEs (by decide), ?_⟩
  · have h1 : oothreadsChecksum cEx hEx [] (.dir tReadEs) =
        .ok (cEx [] []) := by
      simp [oothreadsChecksum, oothreadsDigestWalk, isOsDir, walkAll,
        processItem, processEntries, tReadEs, checksumFrom, compileStream,
        compileChildren, nodeDigest, fileEntries, dirEntries]
    have h2 : oothreadsChecksum cEx hEx [] (.dir tReadDelEs) =
        .ok (cEx [("a", hEx [119])] []) := by
      simp [oothreadsChecksum, oothreadsDigestWalk, isOsDir, walkAll,
        processItem, processEntries, tReadDelEs, checksumFrom, compileStream,
        compileChildren, insertPath, nodeDigest, fileEntries, dirEntries,
        joinPath]
      rfl
    rw [h1, h2]
    intro hcon
    rw [Except.ok.injEq] at hcon
    exact absurd hcon (by decide)

/-- C7 (amended): only the thread-pool strategies (`oothreads`, `fastio`)
catch `OSError` at the worker boundary.  For them, on a tree whose only
errors are unscannable directories (ScanErrors, no bad files), the walk
completes and the digest equals the sequential checksum of the same tree
with every failed subtree deleted (`pruneScan`).  The sequential and
cooperative strategies (`sync`, `trio`, `trio2`) instead abort as a whole
as soon as the tree has any error — an unscannable directory (ScanError)
or an unreadable file (ReadError) alike. -/
theorem C7_scan_containment (c : Combine) (hc : PermInv c) (h : Hash)
    (es : List (String × FSTree)) (hnb : noBadFileEntries es = true)
    (hd : allDiff (es.map Prod.fst) = true) (hwfe : fsWFEntries es = true)
    (sched₁ sched₂ sched₃ : List Nat) :
    oothreadsChecksum c h sched₁ (.dir es) =
      syncChecksum c h (pruneScan (.dir es)) ∧
    fastioChecksum c h sched₂ (.dir es) =
      syncChecksum c h (pruneScan (.dir es)) ∧
    (∀ es' : List (String × FSTree), errFreeEntries es' = false →
      syncChecksum c h (.dir es') = .error () ∧
      trioChecksum c h sched₃ (.dir es') = .error ()) := by
  have hp := fsWF_pruneEntries es hd hwfe
  have hsync : syncChecksum c h (pruneScan (FSTree.dir es)) =
      .ok (canonLevel c [] (allFilesEntries h es)) := by
    rw [pruneScan, syncChecksum_canon c hc h (pruneEntries es)
      (errFree_pruneEntries es hnb) hp.1 hp.2, allFilesEntries_prune]
  refine ⟨?_, ?_, fun es' hbad => ⟨syncChecksum_abort_of_error c h es' hbad,
    trioChecksum_abort_of_error c h sched₃ es' hbad⟩⟩
  · rw [oothreadsChecksum_scanerr c hc h sched₁ es hnb hd hwfe, hsync]
  · rw [fastioChecksum_scanerr c hc h sched₂ es hnb hd hwfe, hsync]

theorem C7_scan_containment_witness :
    PermInv cEx ∧ noBadFileEntries tScanEs = true ∧
    allDiff (tScanEs.map Prod.fst) = true ∧ fsWFEntries tScanEs = true ∧
    oothreadsChecksum cEx hEx [0] (.dir tScanEs) =
      syncChecksum cEx hEx (pruneScan (.dir tScanEs)) :=
  ⟨cEx_permInv, by decide, by decide, by decide,
    (C7_scan_containment cEx cEx_permInv hEx tScanEs (by decide) (by decide)
      (by decide) [0] [1] [2]).1⟩

/-- C8 counterexample: `SyncWalker` on a root that is not a directory does
not yield an empty stream — `iterdir()` on it raises, and the walk (and so
the checksum) errors out. -/
theorem C8_counterexample : syncDigestWalk hEx (.file [120]) = .error () := by
  simp [syncDigestWalk, walkAll, processItem]

/-- C8 (amended): only the thread-pool strategies guard the walk with
`os.path.isdir`: on a root that is not a directory (a regular or even
unreadable file — which is also how a nonexistent path answers `isdir`)
they yield an empty closed stream and the checksum is the digest of an
empty root directory, one call of the combination function on two empty
mappings.  The sequential and cooperative strategies raise on such roots.
(On a genuinely empty directory root every strategy returns the
empty-root digest.) -/
theorem C8_nondir_root (c : Combine) (h : Hash) (b : Bytes)
    (sched₁ sched₂ sched₃ : List Nat) :
    oothreadsDigestWalk h sched₁ (.file b) = .ok [] ∧
    oothreadsChecksum c h sched₁ (.file b) = .ok (c [] []) ∧
    fastioDigestWalk h sched₂ (.file b) = .ok [] ∧
    fastioChecksum c h sched₂ (.file b) = .ok (c [] []) ∧
    oothreadsChecksum c h sched₁ FSTree.badFile = .ok (c [] []) ∧
    syncChecksum c h (.dir []) = .ok (c [] []) ∧
    oothreadsChecksum c h sched₁ (.dir []) = .ok (c [] []) ∧
    fastioChecksum c h sched₂ (.dir []) = .ok (c [] []) ∧
    trioChecksum c h sched₃ (.dir []) = .ok (c [] []) ∧
    syncChecksum c h (.file b) = .error () ∧
    trioChecksum c h sched₃ (.file b) = .error () := by
  refine ⟨?_, ?_, ?_, ?_, ?_, ?_, ?_, ?_, ?_, ?_, ?_⟩
  · simp [oothreadsDigestWalk, isOsDir]
  · simp [oothreadsChecksum, oothreadsDigestWalk, isOsDir, checksumFrom,
      compileStream, compileChildren, nodeDigest, fileEntries, dirEntries]
  · simp [fastioDigestWalk, isOsDir]
  · simp [fastioChecksum, fastioDigestWalk, isOsDir, checksumFrom,
      compileStream, compileChildren, nodeDigest, fileEntries, dirEntries]
  · simp [oothreadsChecksum, oothreadsDigestWalk, isOsDir, checksumFrom,
      compileStream, compileChildren, nodeDigest, fileEntries, dirEntries]
  · simp [syncChecksum, syncDigestWalk, walkAll, processItem, processEntries,
      checksumFrom, compileStream, compileChildren, nodeDigest, fileEntries,
      dirEntries]
  · simp [oothreadsChecksum, oothreadsDigestWalk, isOsDir, walkAll,
      processItem, processEntries, Nat.mod_one, checksumFrom, compileStream,
      compileChildren, nodeDigest, fileEntries, dirEntries]
  · simp [fastioChecksum, fastioDigestWalk, isOsDir, walkAll, processItem,
      processEntries, Nat.mod_one, checksumFrom, compileStream,
      compileChildren, nodeDigest, fileEntries, dirEntries]
  · simp [trioChecksum, trioDigestWalk, walkAll, processItem, processEntries,
      Nat.mod_one, checksumFrom, compileStream, compileChildren, nodeDigest,
      fileEntries, dirEntries]
  · simp [syncChecksum, syncDigestWalk, walkAll, processItem, checksumFrom]
  · simp [trioChecksum, trioDigestWalk, walkAll, processItem, checksumFrom,
      Nat.mod_one]

/-- C9: on every error-free, well-formed tree containing no empty
directories, the top-down recursive assembly strategy (which skips empty
subdirectories entirely) and the stream-based assembly strategy return
equal digests, for an order-independent combination function. -/
theorem C9_recursive_agrees (c : Combine) (hc : PermInv c) (h : Hash)
    (es : List (String × FSTree)) (hef : errFreeEntries es = true)
    (hd : allDiff (es.map Prod.fst) = true) (hwfe : fsWFEntries es = true)
    (hnem : noEmptyDirsEntries es = true) :
    recursiveChecksum c h (.dir es) = syncChecksum c h (.dir es) := by
  have h1 : recursiveChecksum c h (.dir es) = recDigest c h [] es := rfl
  rw [h1, recDigest_canon c hc h es [] hef hd hwfe hnem,
    syncChecksum_canon c hc h es hef hd hwfe]

theorem C9_recursive_agrees_witness :
    PermInv cEx ∧ errFreeEntries t4es = true ∧
    allDiff (t4es.map Prod.fst) = true ∧ fsWFEntries t4es = true ∧
    noEmptyDirsEntries t4es = true ∧
    recursiveChecksum cEx hEx (.dir t4es) = syncChecksum cEx hEx (.dir t4es) :=
  ⟨cEx_permInv, by decide, by decide, by decide, by decide,
    C9_recursive_agrees cEx cEx_permInv hEx t4es (by decide) (by decide)
      (by decide) (by decide)⟩

/-- C10: the Task Queue's accounting invariant `_tasks = |pending| + held`
holds initially (the count is seeded with the number of seed items), is
preserved by every protocol step (`put` increments both, a take removes an
item while holding it, retirement decrements the count only after release),
and consequently at every reachable state the outstanding count is at least
the pending queue's length, and a zero count forces an empty queue — so the
iteration protocol's zero-check alone is sound. -/
theorem C10_count_invariant (seed : List Nat) (s : JSState)
    (hr : JSReachable seed s) :
    (jsInit seed).tasks = (jsInit seed).queue.length + (jsInit seed).held ∧
    (∀ s₁ s₂ : JSState, JSStep s₁ s₂ →
      s₁.tasks = s₁.queue.length + s₁.held →
      s₂.tasks = s₂.queue.length + s₂.held) ∧
    s.queue.length ≤ s.tasks ∧ (s.tasks = 0 → s.queue = []) := by
  have hinv := jsReachable_invariant seed s hr
  refine ⟨rfl, fun s₁ s₂ hstep h1 => jsStep_invariant hstep h1, by omega, ?_⟩
  intro hz
  cases hq : s.queue with
  | nil => rfl
  | cons v rest => rw [hq] at hinv; simp [List.length_cons] at hinv; omega

theorem C10_count_invariant_witness :
    JSReachable [7] (jsInit [7]) ∧
      (jsInit [7]).queue.length ≤ (jsInit [7]).tasks :=
  ⟨Relation.ReflTransGen.refl,
    (C10_count_invariant [7] (jsInit [7]) Relation.ReflTransGen.refl).2.2.1⟩
